import Mathlib

/-!
A verification development for the content-addressed Merkle Patricia Trie of
caramis/oasis-core (src/db/trusted/src/patricia_trie/trie.rs).

The trie engine (get / insert / remove and their recursive steps) is embedded
from the source file.  The nibble-path and node helper modules
(patricia_trie/nibble.rs and patricia_trie/node.rs) are not part of the
provided sources; the definitions taken from them are modelled from the
specification and are marked as such.

The blob store is content-addressed by a 256-bit cryptographic hash of the
deterministic node serialization.  We use the standard idealization of a
collision-free content address: a stored hash is identified with the node it
addresses, so `NodePointer.Pointer` carries the referenced node itself and
equality of root hashes is equality of root nodes.
-/

namespace PatriciaTrie

/-- Modelled from the spec (§3.1, nibble.rs is not under src/): a nibble is a
4-bit value 0..15; we model it as a `Nat` together with validity predicates. -/
abbrev Path := List Nat

/-- Modelled from the spec (§3.1): keys are byte strings; the high nibble of
each byte is emitted before the low nibble. -/
def fromKey : List Nat → Path
  | [] => []
  | b :: bs => b / 16 :: b % 16 :: fromKey bs

/-- All nibbles of a path are in range 0..15. -/
def validPath (p : Path) : Bool := p.all (fun x => decide (x < 16))

/-- All bytes of a key are in range 0..255. -/
def validKey (k : List Nat) : Bool := k.all (fun x => decide (x < 256))

/-- Modelled from the spec (§4.1, nibble.rs is not under src/):
`startsWith p q` holds when `q` is a prefix of `p` (Rust `p.starts_with(&q)`). -/
def startsWith : Path → Path → Bool
  | _, [] => true
  | [], _ :: _ => false
  | a :: as, b :: bs => decide (a = b) && startsWith as bs

/-- Modelled from the spec (§4.1, nibble.rs is not under src/): the longest
common prefix of two paths. -/
def commonPfx : Path → Path → Path
  | a :: as, b :: bs => if a = b then a :: commonPfx as bs else []
  | _, _ => []

mutual
/-- The three-variant node from patricia_trie/node.rs (shape fixed by spec
§3.3 and by its uses in trie.rs): Branch holds an array of 16 child
pointers plus an optional value, Leaf a remaining path and a value,
Extension a shared path and a pointer. -/
inductive Node where
  | Branch (children : List NodePointer) (value : Option (List Nat))
  | Leaf (path : Path) (value : List Nat)
  | Extension (path : Path) (pointer : NodePointer)

/-- The node-pointer sum from patricia_trie/node.rs (spec §3.2): absent,
stored under its content hash, or embedded inline.  `Pointer` carries the
addressed node itself (collision-free content-addressing idealization). -/
inductive NodePointer where
  | Null
  | Pointer (node : Node)
  | Embedded (node : Node)
end

mutual
def Node.beq : Node → Node → Bool
  | .Branch cs v, .Branch cs' v' => NodePointer.listBeq cs cs' && decide (v = v')
  | .Leaf p v, .Leaf p' v' => decide (p = p') && decide (v = v')
  | .Extension p q, .Extension p' q' => decide (p = p') && NodePointer.beq q q'
  | _, _ => false

def NodePointer.beq : NodePointer → NodePointer → Bool
  | .Null, .Null => true
  | .Pointer n, .Pointer n' => Node.beq n n'
  | .Embedded n, .Embedded n' => Node.beq n n'
  | _, _ => false

def NodePointer.listBeq : List NodePointer → List NodePointer → Bool
  | [], [] => true
  | c :: cs, c' :: cs' => NodePointer.beq c c' && NodePointer.listBeq cs cs'
  | _, _ => false
end

mutual
theorem Node.beqEqIff : ∀ a b : Node, Node.beq a b = true ↔ a = b
  | .Branch cs v, .Branch cs' v' => by
    simp [Node.beq, NodePointer.listBeq_iff cs cs']
  | .Branch _ _, .Leaf _ _ => by simp [Node.beq]
  | .Branch _ _, .Extension _ _ => by simp [Node.beq]
  | .Leaf _ _, .Branch _ _ => by simp [Node.beq]
  | .Leaf p v, .Leaf p' v' => by simp [Node.beq]
  | .Leaf _ _, .Extension _ _ => by simp [Node.beq]
  | .Extension _ _, .Branch _ _ => by simp [Node.beq]
  | .Extension _ _, .Leaf _ _ => by simp [Node.beq]
  | .Extension p q, .Extension p' q' => by
    simp [Node.beq, NodePointer.ptrBeqEqIff q q']

theorem NodePointer.ptrBeqEqIff : ∀ a b : NodePointer, NodePointer.beq a b = true ↔ a = b
  | .Null, .Null => by simp [NodePointer.beq]
  | .Null, .Pointer _ => by simp [NodePointer.beq]
  | .Null, .Embedded _ => by simp [NodePointer.beq]
  | .Pointer _, .Null => by simp [NodePointer.beq]
  | .Pointer n, .Pointer n' => by simp [NodePointer.beq, Node.beqEqIff n n']
  | .Pointer _, .Embedded _ => by simp [NodePointer.beq]
  | .Embedded _, .Null => by simp [NodePointer.beq]
  | .Embedded _, .Pointer _ => by simp [NodePointer.beq]
  | .Embedded n, .Embedded n' => by simp [NodePointer.beq, Node.beqEqIff n n']

theorem NodePointer.listBeq_iff : ∀ a b : List NodePointer,
    NodePointer.listBeq a b = true ↔ a = b
  | [], [] => by simp [NodePointer.listBeq]
  | [], _ :: _ => by simp [NodePointer.listBeq]
  | _ :: _, [] => by simp [NodePointer.listBeq]
  | c :: cs, c' :: cs' => by
    simp [NodePointer.listBeq, NodePointer.ptrBeqEqIff c c', NodePointer.listBeq_iff cs cs']
end

instance : DecidableEq Node := fun a b =>
  decidable_of_iff (Node.beq a b = true) (Node.beqEqIff a b)

instance : DecidableEq NodePointer := fun a b =>
  decidable_of_iff (NodePointer.beq a b = true) (NodePointer.ptrBeqEqIff a b)

instance {ε α : Type} [DecidableEq ε] [DecidableEq α] : DecidableEq (Except ε α) :=
  fun a b =>
    match a, b with
    | .error e, .error e' => decidable_of_iff (e = e') (by simp)
    | .ok x, .ok y => decidable_of_iff (x = y) (by simp)
    | .error _, .ok _ => isFalse (by simp)
    | .ok _, .error _ => isFalse (by simp)

/-- Modelled from the spec (§3.3, node.rs is not under src/):
`NodePointer::null_children()`, an array of exactly 16 Null pointers. -/
def nullChildren : List NodePointer := List.replicate 16 .Null

mutual
/-- Modelled from the spec (§4.2, node.rs is not under src/): a crude measure
of the size of the canonical node serialization.  Only that it is a
deterministic function of the node alone matters for the claims below. -/
def Node.serialSize : Node → Nat
  | .Leaf p v => 2 + p.length + v.length
  | .Extension p q => 2 + p.length + NodePointer.serialSize q
  | .Branch cs v =>
    2 + NodePointer.listSerialSize cs + (match v with | some v => v.length | none => 0)

/-- Modelled from the spec (§3.2): size of a serialized node pointer; a stored
hash reference costs 33 bytes, an embedded node its own serialization. -/
def NodePointer.serialSize : NodePointer → Nat
  | .Null => 1
  | .Pointer _ => 33
  | .Embedded n => 1 + Node.serialSize n

/-- Serialized size of a child-pointer array. -/
def NodePointer.listSerialSize : List NodePointer → Nat
  | [] => 0
  | c :: cs => NodePointer.serialSize c + NodePointer.listSerialSize cs
end

/-- Modelled from the spec (§4.2): `is_embeddable` decides, from the node
alone, whether it is carried inline; the spec's example rule is adopted (the
serialization is strictly smaller than a 256-bit hash reference). -/
def Node.is_embeddable (n : Node) : Bool := decide (n.serialSize < 32)

/-- trie.rs `insert_node`: embeddable nodes become `Embedded`; other nodes are
written to the blob store and referenced by their content hash (idealized as
the node itself). -/
def insertNode (n : Node) : NodePointer :=
  if n.is_embeddable then .Embedded n else .Pointer n

/-- Number of non-Null pointers in a child array
(trie.rs `children.iter().filter(|c| c != Null).count()`). -/
def nonNullCount : List NodePointer → Nat
  | [] => 0
  | .Null :: cs => nonNullCount cs
  | .Pointer _ :: cs => nonNullCount cs + 1
  | .Embedded _ :: cs => nonNullCount cs + 1

/-- trie.rs: child count of a branch, where an embedded value also counts. -/
def childCount (children : List NodePointer) (value : Option (List Nat)) : Nat :=
  nonNullCount children + (match value with | some _ => 1 | none => 0)

/-- trie.rs collapse case `1`: `enumerate().filter(non-Null).next().unwrap()`
followed by `deref_node_pointer`, fused: the index of the first non-Null child
together with the node that pointer addresses. -/
def firstNonNull : List NodePointer → Option (Nat × Node)
  | [] => none
  | .Null :: cs => (firstNonNull cs).map (fun p => (p.1 + 1, p.2))
  | .Pointer n :: _ => some (0, n)
  | .Embedded n :: _ => some (0, n)

/-- trie.rs `deref_node_pointer`: dereferencing Null is a panic (`none`); a
stored hash fetches its node, an embedded pointer carries it. -/
def derefNodePointer : NodePointer → Option Node
  | .Null => none
  | .Pointer n => some n
  | .Embedded n => some n

theorem sizeOf_getD_le (cs : List NodePointer) (i : Nat) :
    sizeOf (cs.getD i .Null) ≤ sizeOf cs := by
  induction cs generalizing i with
  | nil => rw [List.getD_nil]; simp
  | cons c cs ih =>
    have hsz : sizeOf (c :: cs) = 1 + sizeOf c + sizeOf cs := by simp
    cases i with
    | zero => rw [List.getD_cons_zero]; omega
    | succ j =>
      rw [List.getD_cons_succ]
      have := ih j
      omega

mutual
/-- trie.rs `get_path_by_pointer`: lookup step on a node pointer; a stored
hash is fetched from the blob store and deserialized (content addressing:
that node is the one the pointer carries). -/
def getPathByPointer : Path → NodePointer → Option (List Nat)
  | _, .Null => none
  | path, .Pointer n => getPathByNode path n
  | path, .Embedded n => getPathByNode path n
termination_by _ p => sizeOf p
decreasing_by all_goals simp_arith

/-- trie.rs `get_path_by_node`: lookup step on a node. -/
def getPathByNode : Path → Node → Option (List Nat)
  | path, .Branch children value =>
    match path with
    | [] => value
    | i :: rest => getPathByPointer rest (children.getD i .Null)
  | path, .Leaf nodePath value => if nodePath = path then some value else none
  | path, .Extension nodePath pointer =>
    if startsWith path nodePath then
      getPathByPointer (path.drop nodePath.length) pointer
    else none
termination_by _ n => sizeOf n
decreasing_by
  · have h1 := sizeOf_getD_le children i
    have h2 : sizeOf (Node.Branch children value) = 1 + sizeOf children + sizeOf value := by
      simp
    omega
  · have h2 : sizeOf (Node.Extension nodePath pointer) =
        1 + sizeOf nodePath + sizeOf pointer := by simp
    omega
end

/-- trie.rs `insert_path_by_node`, the `add_leaf` closure of the leaf-split
case: moves the value into the branch's value slot when the side ends at the
split (asserting the slot is free, `none` = assertion failure), otherwise adds
a new leaf child at the first non-common nibble. -/
def addLeaf (c : Path) (st : List NodePointer × Option (List Nat)) (p : Path)
    (v : List Nat) : Option (List NodePointer × Option (List Nat)) :=
  if c.length = p.length then
    match st.2 with
    | some _ => none
    | none => some (st.1, some v)
  else
    some (st.1.set (p.getD c.length 0)
      (insertNode (.Leaf (p.drop (c.length + 1)) v)), st.2)

mutual
/-- trie.rs `insert_path_by_pointer`: a Null pointer becomes a new leaf, a
stored or embedded node recurses by node; the new node is stored via
`insert_node`.  `.error` models a Rust panic. -/
def insertPathByPointer (path : Path) (value : List Nat) (pointer : NodePointer) :
    Except Unit NodePointer :=
  match pointer with
  | .Null => .ok (insertNode (.Leaf path value))
  | .Pointer n => (insertPathByNode path value n).map insertNode
  | .Embedded n => (insertPathByNode path value n).map insertNode
termination_by sizeOf pointer
decreasing_by all_goals simp_arith

/-- trie.rs `insert_path_by_node`.  Note the source guards the Branch case
with `children.is_empty()` (not `path.is_empty()`); with a non-empty child
array and an empty remaining path, `path[0]` is an out-of-bounds panic,
modelled as `.error ()`. -/
def insertPathByNode (path : Path) (value : List Nat) (node : Node) :
    Except Unit Node :=
  match node with
  | .Branch children nodeValue =>
    if children.isEmpty then
      .ok (.Branch children (some value))
    else
      match path with
      | [] => .error ()
      | i :: rest =>
        match insertPathByPointer rest value (children.getD i .Null) with
        | .error e => .error e
        | .ok p => .ok (.Branch (children.set i p) nodeValue)
  | .Leaf nodePath nodeValue =>
    if path = nodePath then
      .ok (.Leaf path value)
    else
      let c := commonPfx nodePath path
      match addLeaf c (nullChildren, none) nodePath nodeValue with
      | none => .error ()
      | some st1 =>
        match addLeaf c st1 path value with
        | none => .error ()
        | some (tc, tv) =>
          if c.length > 0 then .ok (.Extension c (insertNode (.Branch tc tv)))
          else .ok (.Branch tc tv)
  | .Extension nodePath pointer =>
    if startsWith path nodePath then
      match insertPathByPointer (path.drop nodePath.length) value pointer with
      | .error e => .error e
      | .ok p => .ok (.Extension nodePath p)
    else
      let c := commonPfx nodePath path
      if c.length < nodePath.length then
        let branchNibble := nodePath.getD c.length 0
        let remaining := nodePath.drop (c.length + 1)
        let tc0 :=
          if remaining.isEmpty then nullChildren.set branchNibble pointer
          else nullChildren.set branchNibble (insertNode (.Extension remaining pointer))
        let st :=
          if c.length = path.length then (tc0, some value)
          else (tc0.set (path.getD c.length 0)
            (insertNode (.Leaf (path.drop (c.length + 1)) value)), none)
        if c.length > 0 then .ok (.Extension c (insertNode (.Branch st.1 st.2)))
        else .ok (.Branch st.1 st.2)
      else .error ()
termination_by sizeOf node
decreasing_by
  · have h1 := sizeOf_getD_le children i
    have h2 : sizeOf (Node.Branch children nodeValue) =
        1 + sizeOf children + sizeOf nodeValue := by simp
    omega
  · have h2 : sizeOf (Node.Extension nodePath pointer) =
        1 + sizeOf nodePath + sizeOf pointer := by simp
    omega
end

/-- trie.rs `insert_path_by_node`, extension-split case: the
`target_children` / `target_value` construction, restated as a function for
use in lemma statements (the function body above inlines the same lets). -/
def extSplit (np path : Path) (v : List Nat) (q : NodePointer) :
    List NodePointer × Option (List Nat) :=
  let c := commonPfx np path
  let branchNibble := np.getD c.length 0
  let remaining := np.drop (c.length + 1)
  let tc0 :=
    if remaining.isEmpty then nullChildren.set branchNibble q
    else nullChildren.set branchNibble (insertNode (.Extension remaining q))
  if c.length = path.length then (tc0, some v)
  else (tc0.set (path.getD c.length 0)
    (insertNode (.Leaf (path.drop (c.length + 1)) v)), none)

/-- trie.rs `insert_path_by_node`, extension-split case: the initial
`target_children` array, holding the old extension remainder re-attached at
its branch nibble, before the new key's side is added. -/
def extSplitTc0 (np path : Path) (q : NodePointer) : List NodePointer :=
  let c := commonPfx np path
  let remaining := np.drop (c.length + 1)
  if remaining.isEmpty then nullChildren.set (np.getD c.length 0) q
  else nullChildren.set (np.getD c.length 0) (insertNode (.Extension remaining q))

/-- trie.rs `remove_path_by_node`, the branch-collapse block: runs when the
embedded value or a whole child subtree was removed at this branch. -/
def collapseBranch (children : List NodePointer) (value : Option (List Nat)) :
    Except Unit (Option Node) :=
  match childCount children value, value with
  | 0, _ => .ok none
  | 1, some v => .ok (some (.Leaf [] v))
  | 1, none =>
    match firstNonNull children with
    | none => .ok none
    | some (i, .Branch cs v) =>
      .ok (some (.Extension [i] (insertNode (.Branch cs v))))
    | some (i, .Leaf p v) => .ok (some (.Leaf (i :: p) v))
    | some (i, .Extension p q) =>
      if q = .Null then .error ()
      else .ok (some (.Extension (i :: p) q))
  | _, _ => .ok (some (.Branch children value))

mutual
/-- trie.rs `remove_path_by_pointer`. -/
def removePathByPointer : Path → NodePointer → Except Unit (Option Node)
  | _, .Null => .ok none
  | path, .Pointer n => removePathByNode path n
  | path, .Embedded n => removePathByNode path n
termination_by _ p => sizeOf p
decreasing_by all_goals simp_arith

/-- trie.rs `remove_path_by_node`. -/
def removePathByNode : Path → Node → Except Unit (Option Node)
  | path, .Branch children nodeValue =>
    match path with
    | [] => collapseBranch children none
    | i :: rest =>
      match removePathByPointer rest (children.getD i .Null) with
      | .error e => .error e
      | .ok (some n) =>
        .ok (some (.Branch (children.set i (insertNode n)) nodeValue))
      | .ok none => collapseBranch (children.set i .Null) nodeValue
  | path, .Leaf nodePath nodeValue =>
    if path = nodePath then .ok none
    else .ok (some (.Leaf nodePath nodeValue))
  | path, .Extension nodePath pointer =>
    if startsWith path nodePath then
      match removePathByPointer (path.drop nodePath.length) pointer with
      | .error e => .error e
      | .ok (some (.Branch cs v)) =>
        .ok (some (.Extension nodePath (insertNode (.Branch cs v))))
      | .ok (some (.Leaf p v)) => .ok (some (.Leaf (nodePath ++ p) v))
      | .ok (some (.Extension p q)) => .ok (some (.Extension (nodePath ++ p) q))
      | .ok none => .ok none
    else .ok (some (.Extension nodePath pointer))
termination_by _ n => sizeOf n
decreasing_by
  · have h1 := sizeOf_getD_le children i
    have h2 : sizeOf (Node.Branch children value) =
        1 + sizeOf children + sizeOf value := by simp
    omega
  · have h2 : sizeOf (Node.Extension nodePath pointer) =
        1 + sizeOf nodePath + sizeOf pointer := by simp
    omega
end

/-- trie.rs `get_root_pointer`. -/
def rootPointer : Option Node → NodePointer
  | some n => .Pointer n
  | none => .Null

/-- trie.rs `get`: public lookup. -/
def get (root : Option Node) (key : List Nat) : Option (List Nat) :=
  getPathByPointer (fromKey key) (rootPointer root)

/-- trie.rs `insert`: public insert; the resulting pointer is materialized as
a root hash (an Embedded root node is written to the blob store), and a Null
result is `unreachable!` (modelled as `.error ()`, like a panic). -/
def insert (root : Option Node) (key value : List Nat) : Except Unit Node :=
  match insertPathByPointer (fromKey key) value (rootPointer root) with
  | .error e => .error e
  | .ok .Null => .error ()
  | .ok (.Pointer n) => .ok n
  | .ok (.Embedded n) => .ok n

/-- trie.rs `remove`: public remove; absent root short-circuits to None, a
surviving root node is stored and its hash returned. -/
def remove (root : Option Node) (key : List Nat) : Except Unit (Option Node) :=
  match root with
  | none => .ok none
  | some _ =>
    match removePathByPointer (fromKey key) (rootPointer root) with
    | .error e => .error e
    | .ok none => .ok none
    | .ok (some n) => .ok (some n)

/-- Fold a list of (key, value) pairs through `insert`, starting at a root. -/
def insertSeq : Option Node → List (List Nat × List Nat) → Except Unit (Option Node)
  | r, [] => .ok r
  | r, (k, v) :: rest =>
    match insert r k v with
    | .error e => .error e
    | .ok n => insertSeq (some n) rest

/-- Blob-store contents: the nodes written so far (content addressing: a blob
is identified with the node it encodes). -/
abbrev Store := List Node

mutual
/-- trie.rs `get_path_by_pointer` with the blob store threaded explicitly: a
`Pointer` dereference issues `storage.get`, a read that leaves the store
unchanged; the body of `get` contains no `storage.insert` call. -/
def getPathByPointerS : Path → NodePointer → Store → Option (List Nat) × Store
  | _, .Null, s => (none, s)
  | path, .Pointer n, s => getPathByNodeS path n s
  | path, .Embedded n, s => getPathByNodeS path n s
termination_by _ p _ => sizeOf p
decreasing_by all_goals simp_arith

/-- trie.rs `get_path_by_node` with the blob store threaded explicitly. -/
def getPathByNodeS : Path → Node → Store → Option (List Nat) × Store
  | path, .Branch children value, s =>
    match path with
    | [] => (value, s)
    | i :: rest => getPathByPointerS rest (children.getD i .Null) s
  | path, .Leaf nodePath value, s =>
    (if nodePath = path then some value else none, s)
  | path, .Extension nodePath pointer, s =>
    if startsWith path nodePath then
      getPathByPointerS (path.drop nodePath.length) pointer s
    else (none, s)
termination_by _ n _ => sizeOf n
decreasing_by
  · have h1 := sizeOf_getD_le children i
    have h2 : sizeOf (Node.Branch children value) =
        1 + sizeOf children + sizeOf value := by simp
    omega
  · have h2 : sizeOf (Node.Extension nodePath pointer) =
        1 + sizeOf nodePath + sizeOf pointer := by simp
    omega
end

/-- trie.rs `get` with the blob store threaded explicitly. -/
def getS (root : Option Node) (key : List Nat) (s : Store) :
    Option (List Nat) × Store :=
  getPathByPointerS (fromKey key) (rootPointer root) s

mutual
/-- Fuel-indexed mirror of `getPathByPointer`: each recursive step of the
walk consumes one unit of fuel, `none` = the walk did not finish. -/
def getFuelP : Nat → Path → NodePointer → Option (Option (List Nat))
  | 0, _, _ => none
  | _ + 1, _, .Null => some none
  | fuel + 1, path, .Pointer n => getFuelN fuel path n
  | fuel + 1, path, .Embedded n => getFuelN fuel path n

/-- Fuel-indexed mirror of `getPathByNode`. -/
def getFuelN : Nat → Path → Node → Option (Option (List Nat))
  | 0, _, _ => none
  | fuel + 1, path, .Branch children value =>
    match path with
    | [] => some value
    | i :: rest => getFuelP fuel rest (children.getD i .Null)
  | _ + 1, path, .Leaf nodePath value =>
    some (if nodePath = path then some value else none)
  | fuel + 1, path, .Extension nodePath pointer =>
    if startsWith path nodePath then
      getFuelP fuel (path.drop nodePath.length) pointer
    else some none
end

mutual
/-- Fuel-indexed mirror of `insertPathByPointer`. -/
def insertFuelP : Nat → Path → List Nat → NodePointer → Option (Except Unit NodePointer)
  | 0, _, _, _ => none
  | _ + 1, path, value, .Null => some (.ok (insertNode (.Leaf path value)))
  | fuel + 1, path, value, .Pointer n =>
    (insertFuelN fuel path value n).map (Except.map insertNode)
  | fuel + 1, path, value, .Embedded n =>
    (insertFuelN fuel path value n).map (Except.map insertNode)

/-- Fuel-indexed mirror of `insertPathByNode`. -/
def insertFuelN : Nat → Path → List Nat → Node → Option (Except Unit Node)
  | 0, _, _, _ => none
  | fuel + 1, path, value, .Branch children nodeValue =>
    if children.isEmpty then
      some (.ok (.Branch children (some value)))
    else
      match path with
      | [] => some (.error ())
      | i :: rest =>
        match insertFuelP fuel rest value (children.getD i .Null) with
        | none => none
        | some (.error e) => some (.error e)
        | some (.ok p) => some (.ok (.Branch (children.set i p) nodeValue))
  | _ + 1, path, value, .Leaf nodePath nodeValue =>
    if path = nodePath then
      some (.ok (.Leaf path value))
    else
      let c := commonPfx nodePath path
      match addLeaf c (nullChildren, none) nodePath nodeValue with
      | none => some (.error ())
      | some st1 =>
        match addLeaf c st1 path value with
        | none => some (.error ())
        | some (tc, tv) =>
          if c.length > 0 then some (.ok (.Extension c (insertNode (.Branch tc tv))))
          else some (.ok (.Branch tc tv))
  | fuel + 1, path, value, .Extension nodePath pointer =>
    if startsWith path nodePath then
      match insertFuelP fuel (path.drop nodePath.length) value pointer with
      | none => none
      | some (.error e) => some (.error e)
      | some (.ok p) => some (.ok (.Extension nodePath p))
    else
      let c := commonPfx nodePath path
      if c.length < nodePath.length then
        let branchNibble := nodePath.getD c.length 0
        let remaining := nodePath.drop (c.length + 1)
        let tc0 :=
          if remaining.isEmpty then nullChildren.set branchNibble pointer
          else nullChildren.set branchNibble (insertNode (.Extension remaining pointer))
        let st :=
          if c.length = path.length then (tc0, some value)
          else (tc0.set (path.getD c.length 0)
            (insertNode (.Leaf (path.drop (c.length + 1)) value)), none)
        if c.length > 0 then some (.ok (.Extension c (insertNode (.Branch st.1 st.2))))
        else some (.ok (.Branch st.1 st.2))
      else some (.error ())
end

mutual
/-- Fuel-indexed mirror of `removePathByPointer`. -/
def removeFuelP : Nat → Path → NodePointer → Option (Except Unit (Option Node))
  | 0, _, _ => none
  | _ + 1, _, .Null => some (.ok none)
  | fuel + 1, path, .Pointer n => removeFuelN fuel path n
  | fuel + 1, path, .Embedded n => removeFuelN fuel path n

/-- Fuel-indexed mirror of `removePathByNode`. -/
def removeFuelN : Nat → Path → Node → Option (Except Unit (Option Node))
  | 0, _, _ => none
  | fuel + 1, path, .Branch children nodeValue =>
    match path with
    | [] => some (collapseBranch children none)
    | i :: rest =>
      match removeFuelP fuel rest (children.getD i .Null) with
      | none => none
      | some (.error e) => some (.error e)
      | some (.ok (some n)) =>
        some (.ok (some (.Branch (children.set i (insertNode n)) nodeValue)))
      | some (.ok none) => some (collapseBranch (children.set i .Null) nodeValue)
  | _ + 1, path, .Leaf nodePath nodeValue =>
    if path = nodePath then some (.ok none)
    else some (.ok (some (.Leaf nodePath nodeValue)))
  | fuel + 1, path, .Extension nodePath pointer =>
    if startsWith path nodePath then
      match removeFuelP fuel (path.drop nodePath.length) pointer with
      | none => none
      | some (.error e) => some (.error e)
      | some (.ok (some (.Branch cs v))) =>
        some (.ok (some (.Extension nodePath (insertNode (.Branch cs v)))))
      | some (.ok (some (.Leaf p v))) => some (.ok (some (.Leaf (nodePath ++ p) v)))
      | some (.ok (some (.Extension p q))) =>
        some (.ok (some (.Extension (nodePath ++ p) q)))
      | some (.ok none) => some (.ok none)
    else some (.ok (some (.Extension nodePath pointer)))
end

/-- Recognizer for Branch nodes. -/
def isBranch : Node → Bool
  | .Branch _ _ => true
  | _ => false

mutual
/-- Canonical-form invariant, spec §3.4, on a node: valid nibble paths,
Extension paths non-empty and pointing (through a correctly chosen pointer
variant) at a canonical Branch, Branches with exactly 16 slots and at least
two uses (children plus embedded value). -/
def canonicalNode : Node → Bool
  | .Leaf p _ => validPath p
  | .Extension p q => !p.isEmpty && validPath p && canonicalExtTarget q
  | .Branch cs v =>
    decide (cs.length = 16) && canonicalChildren cs && decide (2 ≤ childCount cs v)
termination_by n => sizeOf n

/-- Canonical-form invariant on a branch child pointer: Null is allowed; a
non-Null pointer must use the variant forced by `is_embeddable` (invariant 7)
and address a canonical node. -/
def canonicalPtr : NodePointer → Bool
  | .Null => true
  | .Pointer n => !n.is_embeddable && canonicalNode n
  | .Embedded n => n.is_embeddable && canonicalNode n
termination_by p => sizeOf p

/-- Canonical-form invariant on an extension target: additionally non-Null
(invariant 1) and a Branch node (invariants 3 and 4). -/
def canonicalExtTarget : NodePointer → Bool
  | .Null => false
  | .Pointer n => !n.is_embeddable && isBranch n && canonicalNode n
  | .Embedded n => n.is_embeddable && isBranch n && canonicalNode n
termination_by p => sizeOf p

/-- Canonical-form invariant over a child array. -/
def canonicalChildren : List NodePointer → Bool
  | [] => true
  | c :: cs => canonicalPtr c && canonicalChildren cs
termination_by cs => sizeOf cs
end

/-- Canonical-form invariant on an optional root. -/
def canonicalRoot : Option Node → Bool
  | none => true
  | some n => canonicalNode n

mutual
/-- Invariants 3 and 4 of spec §3.4 in isolation: within the tree, no
Extension node's pointer refers to another Extension or to a Leaf. -/
def noExtExtLeaf : Node → Bool
  | .Leaf _ _ => true
  | .Branch cs _ => noExtExtLeafChildren cs
  | .Extension _ q =>
    noExtExtLeafPtr q &&
      (match q with
       | .Null => true
       | .Pointer n => isBranch n
       | .Embedded n => isBranch n)
termination_by n => sizeOf n

/-- `noExtExtLeaf` through a pointer. -/
def noExtExtLeafPtr : NodePointer → Bool
  | .Null => true
  | .Pointer n => noExtExtLeaf n
  | .Embedded n => noExtExtLeaf n
termination_by p => sizeOf p

/-- `noExtExtLeaf` over a child array. -/
def noExtExtLeafChildren : List NodePointer → Bool
  | [] => true
  | c :: cs => noExtExtLeafPtr c && noExtExtLeafChildren cs
termination_by cs => sizeOf cs
end

/-- Roots reachable through the public trie API starting from the empty
mapping: the empty root, and everything a successful insert or remove of a
byte-string key produces from a reachable root. -/
inductive Reachable : Option Node → Prop where
  | empty : Reachable none
  | insert_step {r : Option Node} {k v : List Nat} {n : Node} :
      Reachable r → validKey k = true → insert r k v = .ok n → Reachable (some n)
  | remove_step {r r' : Option Node} {k : List Nat} :
      Reachable r → validKey k = true → remove r k = .ok r' → Reachable r'

/-- Fuel-indexed mirror of the public `insert`. -/
def insertFuel (fuel : Nat) (root : Option Node) (key value : List Nat) :
    Option (Except Unit Node) :=
  match insertFuelP fuel (fromKey key) value (rootPointer root) with
  | none => none
  | some (.error e) => some (.error e)
  | some (.ok .Null) => some (.error ())
  | some (.ok (.Pointer n)) => some (.ok n)
  | some (.ok (.Embedded n)) => some (.ok n)

/-- Fuel-indexed mirror of the public `remove`. -/
def removeFuel (fuel : Nat) (root : Option Node) (key : List Nat) :
    Option (Except Unit (Option Node)) :=
  match root with
  | none => some (.ok none)
  | some _ =>
    match removeFuelP fuel (fromKey key) (rootPointer root) with
    | none => none
    | some (.error e) => some (.error e)
    | some (.ok none) => some (.ok none)
    | some (.ok (some n)) => some (.ok (some n))

/-- Fuel-indexed mirror of `insertSeq`. -/
def insertSeqFuel (fuel : Nat) :
    Option Node → List (List Nat × List Nat) → Option (Except Unit (Option Node))
  | r, [] => some (.ok r)
  | r, (k, v) :: rest =>
    match insertFuel fuel r k v with
    | none => none
    | some (.error e) => some (.error e)
    | some (.ok n) => insertSeqFuel fuel (some n) rest

mutual
theorem getFuelP_eq : ∀ (fuel : Nat) (path : Path) (p : NodePointer),
    sizeOf p < fuel → getFuelP fuel path p = some (getPathByPointer path p)
  | 0, _, p, h => absurd h (Nat.not_lt_zero _)
  | _ + 1, path, .Null, _ => by
    simp [getFuelP, getPathByPointer]
  | fuel + 1, path, .Pointer n, h => by
    have hn : sizeOf n < fuel := by simp at h; omega
    simp [getFuelP, getPathByPointer, getFuelN_eq fuel path n hn]
  | fuel + 1, path, .Embedded n, h => by
    have hn : sizeOf n < fuel := by simp at h; omega
    simp [getFuelP, getPathByPointer, getFuelN_eq fuel path n hn]

theorem getFuelN_eq : ∀ (fuel : Nat) (path : Path) (n : Node),
    sizeOf n < fuel → getFuelN fuel path n = some (getPathByNode path n)
  | 0, _, n, h => absurd h (Nat.not_lt_zero _)
  | fuel + 1, path, .Branch children value, h => by
    cases path with
    | nil => simp [getFuelN, getPathByNode]
    | cons i rest =>
      have hc : sizeOf (children.getD i .Null) < fuel := by
        have h1 := sizeOf_getD_le children i
        have h2 : sizeOf (Node.Branch children value) =
            1 + sizeOf children + sizeOf value := by simp
        omega
      simp only [getFuelN, getPathByNode]
      exact getFuelP_eq fuel rest _ hc
  | _ + 1, path, .Leaf nodePath value, _ => by simp [getFuelN, getPathByNode]
  | fuel + 1, path, .Extension nodePath pointer, h => by
    by_cases hs : startsWith path nodePath
    · have hq : sizeOf pointer < fuel := by simp at h; omega
      simp [getFuelN, getPathByNode, hs, getFuelP_eq fuel _ _ hq]
    · simp [getFuelN, getPathByNode, hs]
end

mutual
theorem insertFuelP_eq : ∀ (fuel : Nat) (path : Path) (value : List Nat)
    (p : NodePointer), sizeOf p < fuel →
    insertFuelP fuel path value p = some (insertPathByPointer path value p)
  | 0, _, _, p, h => absurd h (Nat.not_lt_zero _)
  | _ + 1, path, value, .Null, _ => by
    simp [insertFuelP, insertPathByPointer]
  | fuel + 1, path, value, .Pointer n, h => by
    have hn : sizeOf n < fuel := by simp at h; omega
    simp only [insertFuelP, insertPathByPointer, insertFuelN_eq fuel path value n hn]
    rfl
  | fuel + 1, path, value, .Embedded n, h => by
    have hn : sizeOf n < fuel := by simp at h; omega
    simp only [insertFuelP, insertPathByPointer, insertFuelN_eq fuel path value n hn]
    rfl

theorem insertFuelN_eq : ∀ (fuel : Nat) (path : Path) (value : List Nat)
    (n : Node), sizeOf n < fuel →
    insertFuelN fuel path value n = some (insertPathByNode path value n)
  | 0, _, _, n, h => absurd h (Nat.not_lt_zero _)
  | fuel + 1, path, value, .Branch children nodeValue, h => by
    unfold insertFuelN insertPathByNode
    by_cases he : children.isEmpty
    · simp [he]
    · cases path with
      | nil => simp [he]
      | cons i rest =>
        have hc : sizeOf (children.getD i .Null) < fuel := by
          have h1 := sizeOf_getD_le children i
          have h2 : sizeOf (Node.Branch children nodeValue) =
              1 + sizeOf children + sizeOf nodeValue := by simp
          omega
        have hrec := insertFuelP_eq fuel rest value _ hc
        simp only [he, Bool.false_eq_true, if_false, hrec]
        cases insertPathByPointer rest value (children.getD i .Null) <;> rfl
  | _ + 1, path, value, .Leaf nodePath nodeValue, _ => by
    unfold insertFuelN insertPathByNode
    by_cases hp : path = nodePath
    · simp [hp]
    · simp only [hp, if_false]
      cases h1 : addLeaf (commonPfx nodePath path) (nullChildren, none) nodePath nodeValue with
      | none => simp [h1]
      | some st1 =>
        cases h2 : addLeaf (commonPfx nodePath path) st1 path value with
        | none => simp [h1, h2]
        | some st =>
          by_cases hl : (commonPfx nodePath path).length > 0 <;> simp [h1, h2, hl]
  | fuel + 1, path, value, .Extension nodePath pointer, h => by
    unfold insertFuelN insertPathByNode
    by_cases hs : startsWith path nodePath
    · have hq : sizeOf pointer < fuel := by simp at h; omega
      have hrec := insertFuelP_eq fuel (path.drop nodePath.length) value _ hq
      simp only [hs, if_true, hrec]
      cases insertPathByPointer (path.drop nodePath.length) value pointer <;> rfl
    · simp only [hs, Bool.false_eq_true, if_false]
      by_cases hcl : (commonPfx nodePath path).length < nodePath.length
      · simp only [hcl, if_true]
        by_cases hl : (commonPfx nodePath path).length > 0 <;> simp [hl]
      · simp [hcl]
end

mutual
theorem removeFuelP_eq : ∀ (fuel : Nat) (path : Path) (p : NodePointer),
    sizeOf p < fuel → removeFuelP fuel path p = some (removePathByPointer path p)
  | 0, _, p, h => absurd h (Nat.not_lt_zero _)
  | _ + 1, path, .Null, _ => by
    simp [removeFuelP, removePathByPointer]
  | fuel + 1, path, .Pointer n, h => by
    have hn : sizeOf n < fuel := by simp at h; omega
    simp [removeFuelP, removePathByPointer, removeFuelN_eq fuel path n hn]
  | fuel + 1, path, .Embedded n, h => by
    have hn : sizeOf n < fuel := by simp at h; omega
    simp [removeFuelP, removePathByPointer, removeFuelN_eq fuel path n hn]

theorem removeFuelN_eq : ∀ (fuel : Nat) (path : Path) (n : Node),
    sizeOf n < fuel → removeFuelN fuel path n = some (removePathByNode path n)
  | 0, _, n, h => absurd h (Nat.not_lt_zero _)
  | fuel + 1, path, .Branch children nodeValue, h => by
    cases path with
    | nil => simp [removeFuelN, removePathByNode]
    | cons i rest =>
      have hc : sizeOf (children.getD i .Null) < fuel := by
        have h1 := sizeOf_getD_le children i
        have h2 : sizeOf (Node.Branch children nodeValue) =
            1 + sizeOf children + sizeOf nodeValue := by simp
        omega
      have hrec := removeFuelP_eq fuel rest _ hc
      simp only [removeFuelN, removePathByNode, hrec]
      cases removePathByPointer rest (children.getD i .Null) with
      | error e => rfl
      | ok o => cases o <;> rfl
  | _ + 1, path, .Leaf nodePath nodeValue, _ => by
    by_cases hp : path = nodePath <;> simp [removeFuelN, removePathByNode, hp]
  | fuel + 1, path, .Extension nodePath pointer, h => by
    by_cases hs : startsWith path nodePath
    · have hq : sizeOf pointer < fuel := by simp at h; omega
      have hrec := removeFuelP_eq fuel (path.drop nodePath.length) _ hq
      simp only [removeFuelN, removePathByNode, hs, if_true, hrec]
      cases removePathByPointer (path.drop nodePath.length) pointer with
      | error e => rfl
      | ok o =>
        cases o with
        | none => rfl
        | some n => cases n <;> rfl
    · simp [removeFuelN, removePathByNode, hs]
end

theorem insertFuel_eq (fuel : Nat) (root : Option Node) (key value : List Nat)
    (h : sizeOf (rootPointer root) < fuel) :
    insertFuel fuel root key value = some (insert root key value) := by
  have hrec := insertFuelP_eq fuel (fromKey key) value _ h
  simp only [insertFuel, insert, hrec]
  cases insertPathByPointer (fromKey key) value (rootPointer root) with
  | error e => rfl
  | ok p => cases p <;> rfl

theorem removeFuel_eq (fuel : Nat) (root : Option Node) (key : List Nat)
    (h : sizeOf (rootPointer root) < fuel) :
    removeFuel fuel root key = some (remove root key) := by
  cases root with
  | none => simp [removeFuel, remove]
  | some r =>
    have hrec := removeFuelP_eq fuel (fromKey key) _ h
    simp only [removeFuel, remove, hrec]
    cases removePathByPointer (fromKey key) (rootPointer (some r)) with
    | error e => rfl
    | ok o => cases o <;> rfl

/-- Evaluation bridge: a fuel run that finishes computes `insert`. -/
theorem insert_eval {fuel : Nat} {root : Option Node} {key value : List Nat}
    {x : Except Unit Node} (h : sizeOf (rootPointer root) < fuel)
    (hx : insertFuel fuel root key value = some x) : insert root key value = x :=
  Option.some.inj ((insertFuel_eq fuel root key value h).symm.trans hx)

/-- Evaluation bridge: a fuel run that finishes computes `remove`. -/
theorem remove_eval {fuel : Nat} {root : Option Node} {key : List Nat}
    {x : Except Unit (Option Node)} (h : sizeOf (rootPointer root) < fuel)
    (hx : removeFuel fuel root key = some x) : remove root key = x :=
  Option.some.inj ((removeFuel_eq fuel root key h).symm.trans hx)

/-- Evaluation bridge: a fuel run that finishes computes `get`. -/
theorem get_eval {fuel : Nat} {root : Option Node} {key : List Nat}
    {x : Option (List Nat)} (h : sizeOf (rootPointer root) < fuel)
    (hx : getFuelP fuel (fromKey key) (rootPointer root) = some x) :
    get root key = x :=
  Option.some.inj ((getFuelP_eq fuel (fromKey key) _ h).symm.trans hx)

theorem getD_set_eq {α : Type} (l : List α) (i : Nat) (x d : α) (h : i < l.length) :
    (l.set i x).getD i d = x := by
  induction l generalizing i with
  | nil => simp at h
  | cons a l ih =>
    cases i with
    | zero => rfl
    | succ j =>
      simp only [List.set_cons_succ, List.getD_cons_succ]
      exact ih j (by simpa using h)

theorem getD_set_ne {α : Type} (l : List α) (i j : Nat) (x d : α) (h : i ≠ j) :
    (l.set i x).getD j d = l.getD j d := by
  induction l generalizing i j with
  | nil => simp [List.getD_nil]
  | cons a l ih =>
    cases i with
    | zero =>
      cases j with
      | zero => exact absurd rfl h
      | succ j' => rfl
    | succ i' =>
      cases j with
      | zero => rfl
      | succ j' =>
        simp only [List.set_cons_succ, List.getD_cons_succ]
        exact ih i' j' (by omega)

theorem set_getD_self {α : Type} (l : List α) (i : Nat) (x d : α)
    (h : l.getD i d = x) : l.set i x = l := by
  induction l generalizing i with
  | nil => rfl
  | cons a l ih =>
    cases i with
    | zero => simp only [List.getD_cons_zero] at h; simp [h]
    | succ j =>
      simp only [List.getD_cons_succ] at h
      simp [ih j h]

theorem set_set_same {α : Type} (l : List α) (i : Nat) (x y : α) :
    (l.set i x).set i y = l.set i y := by
  induction l generalizing i with
  | nil => rfl
  | cons a l ih =>
    cases i with
    | zero => rfl
    | succ j => simp [List.set_cons_succ, ih j]

theorem getD_replicate_self {α : Type} (n i : Nat) (d : α) :
    (List.replicate n d).getD i d = d := by
  induction n generalizing i with
  | zero => simp [List.getD_nil]
  | succ m ih =>
    cases i with
    | zero => rfl
    | succ j => simp only [List.replicate_succ, List.getD_cons_succ]; exact ih j

theorem set_replicate_decomp {α : Type} (n i : Nat) (d x : α) (h : i < n) :
    (List.replicate n d).set i x =
      List.replicate i d ++ x :: List.replicate (n - i - 1) d := by
  induction i generalizing n with
  | zero =>
    cases n with
    | zero => omega
    | succ m => simp [List.replicate_succ]
  | succ j ih =>
    cases n with
    | zero => omega
    | succ m =>
      simp only [List.replicate_succ, List.set_cons_succ, List.cons_append,
        List.cons.injEq, true_and]
      have := ih m (by omega)
      simpa using this

/-- The weight a pointer contributes to the non-Null child count. -/
def ptrWeight (p : NodePointer) : Nat :=
  match p with
  | .Null => 0
  | _ => 1

theorem nonNullCount_cons (c : NodePointer) (cs : List NodePointer) :
    nonNullCount (c :: cs) = ptrWeight c + nonNullCount cs := by
  cases c <;> simp [nonNullCount, ptrWeight] <;> omega

theorem nonNullCount_append (a b : List NodePointer) :
    nonNullCount (a ++ b) = nonNullCount a + nonNullCount b := by
  induction a with
  | nil => simp [nonNullCount]
  | cons c cs ih =>
    simp only [List.cons_append, nonNullCount_cons, ih]
    omega

theorem nonNullCount_replicate_null (n : Nat) :
    nonNullCount (List.replicate n .Null) = 0 := by
  induction n with
  | zero => rfl
  | succ m ih => simpa [List.replicate_succ, nonNullCount] using ih

theorem nonNullCount_set (cs : List NodePointer) (i : Nat) (x : NodePointer)
    (h : i < cs.length) :
    nonNullCount (cs.set i x) + ptrWeight (cs.getD i .Null) =
      nonNullCount cs + ptrWeight x := by
  induction cs generalizing i with
  | nil => simp at h
  | cons c cs ih =>
    cases i with
    | zero =>
      simp only [List.set_cons_zero, List.getD_cons_zero, nonNullCount_cons]
      omega
    | succ j =>
      simp only [List.set_cons_succ, List.getD_cons_succ, nonNullCount_cons]
      have := ih j (by simpa using h)
      omega

theorem ptrWeight_eq_zero_iff (p : NodePointer) : ptrWeight p = 0 ↔ p = .Null := by
  cases p <;> simp [ptrWeight]

theorem derefNodePointer_isSome_of_ne_null {p : NodePointer} (h : p ≠ .Null) :
    ∃ m, derefNodePointer p = some m := by
  cases p with
  | Null => exact absurd rfl h
  | Pointer n => exact ⟨n, rfl⟩
  | Embedded n => exact ⟨n, rfl⟩

theorem firstNonNull_eq_none_iff (cs : List NodePointer) :
    firstNonNull cs = none ↔ nonNullCount cs = 0 := by
  induction cs with
  | nil => simp [firstNonNull, nonNullCount]
  | cons c cs ih =>
    cases c with
    | Null => simpa [firstNonNull, nonNullCount] using ih
    | Pointer n => simp [firstNonNull, nonNullCount]
    | Embedded n => simp [firstNonNull, nonNullCount]

theorem firstNonNull_some (cs : List NodePointer) (i : Nat) (m : Node)
    (h : firstNonNull cs = some (i, m)) :
    i < cs.length ∧ derefNodePointer (cs.getD i .Null) = some m := by
  induction cs generalizing i with
  | nil => simp [firstNonNull] at h
  | cons c cs ih =>
    cases c with
    | Null =>
      simp only [firstNonNull, Option.map_eq_some'] at h
      obtain ⟨q, hq, hmk⟩ := h
      obtain ⟨j, m'⟩ := q
      simp only [Prod.mk.injEq] at hmk
      obtain ⟨hj1, hj2⟩ := hmk
      subst hj2
      have hih := ih j hq
      constructor
      · simp only [List.length_cons]; omega
      · have hi : i = j + 1 := by omega
        subst hi
        simpa [List.getD_cons_succ] using hih.2
    | Pointer n =>
      simp only [firstNonNull, Option.some.injEq, Prod.mk.injEq] at h
      obtain ⟨h1, h2⟩ := h
      subst h1; subst h2
      simp [derefNodePointer]
    | Embedded n =>
      simp only [firstNonNull, Option.some.injEq, Prod.mk.injEq] at h
      obtain ⟨h1, h2⟩ := h
      subst h1; subst h2
      simp [derefNodePointer]

theorem firstNonNull_append_replicate_null (k : Nat) (cs : List NodePointer) :
    firstNonNull (List.replicate k .Null ++ cs) =
      (firstNonNull cs).map (fun p => (p.1 + k, p.2)) := by
  induction k with
  | zero =>
    simp only [List.replicate, List.nil_append]
    cases firstNonNull cs with
    | none => rfl
    | some p => cases p with | mk a b => simp
  | succ j ih =>
    simp only [List.replicate_succ, List.cons_append, firstNonNull, List.append_eq]
    rw [ih]
    cases firstNonNull cs with
    | none => rfl
    | some p =>
      cases p with
      | mk a b =>
        simp only [Option.map_some', Option.some.injEq, Prod.mk.injEq]
        constructor
        · omega
        · trivial

theorem firstNonNull_replicate_set (n i : Nat) (p : NodePointer) (m : Node)
    (hi : i < n) (hp : derefNodePointer p = some m) :
    firstNonNull ((List.replicate n NodePointer.Null).set i p) = some (i, m) := by
  rw [set_replicate_decomp _ _ _ _ hi, firstNonNull_append_replicate_null]
  cases p with
  | Null => simp [derefNodePointer] at hp
  | Pointer n' =>
    simp only [derefNodePointer, Option.some.injEq] at hp
    subst hp
    simp [firstNonNull]
  | Embedded n' =>
    simp only [derefNodePointer, Option.some.injEq] at hp
    subst hp
    simp [firstNonNull]

theorem startsWith_nil_right (p : Path) : startsWith p [] = true := by
  cases p <;> rfl

theorem startsWith_refl (p : Path) : startsWith p p = true := by
  induction p with
  | nil => rfl
  | cons a as ih => simp [startsWith, ih]

theorem startsWith_append (c l : Path) : startsWith (c ++ l) c = true := by
  induction c with
  | nil => exact startsWith_nil_right l
  | cons a as ih => simp [startsWith, ih]

theorem append_drop_of_startsWith {p c : Path} (h : startsWith p c = true) :
    c ++ p.drop c.length = p := by
  induction c generalizing p with
  | nil => simp
  | cons a as ih =>
    cases p with
    | nil => simp [startsWith] at h
    | cons b bs =>
      simp only [startsWith, Bool.and_eq_true, decide_eq_true_eq] at h
      obtain ⟨h1, h2⟩ := h
      subst h1
      simpa [List.length_cons] using ih h2

theorem startsWith_length_le {p c : Path} (h : startsWith p c = true) :
    c.length ≤ p.length := by
  conv_rhs => rw [← append_drop_of_startsWith h]
  simp

theorem commonPfx_startsWith_left (a b : Path) : startsWith a (commonPfx a b) = true := by
  induction a generalizing b with
  | nil => cases b <;> rfl
  | cons x xs ih =>
    cases b with
    | nil => rfl
    | cons y ys =>
      by_cases hxy : x = y
      · simp [commonPfx, hxy, startsWith, ih]
      · simp [commonPfx, hxy, startsWith]

theorem commonPfx_startsWith_right (a b : Path) : startsWith b (commonPfx a b) = true := by
  induction a generalizing b with
  | nil => cases b <;> rfl
  | cons x xs ih =>
    cases b with
    | nil => rfl
    | cons y ys =>
      by_cases hxy : x = y
      · subst hxy
        simp [commonPfx, startsWith, ih]
      · simp [commonPfx, hxy, startsWith]

theorem commonPfx_length_le_left (a b : Path) : (commonPfx a b).length ≤ a.length :=
  startsWith_length_le (commonPfx_startsWith_left a b)

theorem commonPfx_length_le_right (a b : Path) : (commonPfx a b).length ≤ b.length :=
  startsWith_length_le (commonPfx_startsWith_right a b)

theorem startsWith_of_commonPfx_length_left {a b : Path}
    (h : (commonPfx a b).length = a.length) : startsWith b a = true := by
  induction a generalizing b with
  | nil => exact startsWith_nil_right b
  | cons x xs ih =>
    cases b with
    | nil => simp [commonPfx] at h
    | cons y ys =>
      by_cases hxy : x = y
      · subst hxy
        rw [show commonPfx (x :: xs) (x :: ys) = x :: commonPfx xs ys from by
          simp [commonPfx]] at h
        simp only [List.length_cons] at h
        simp [startsWith, @ih ys (by omega)]
      · simp [commonPfx, hxy] at h

theorem commonPfx_getD_ne {a b : Path} (ha : (commonPfx a b).length < a.length)
    (hb : (commonPfx a b).length < b.length) :
    a.getD (commonPfx a b).length 0 ≠ b.getD (commonPfx a b).length 0 := by
  induction a generalizing b with
  | nil => simp at ha
  | cons x xs ih =>
    cases b with
    | nil => simp at hb
    | cons y ys =>
      by_cases hxy : x = y
      · subst hxy
        rw [show commonPfx (x :: xs) (x :: ys) = x :: commonPfx xs ys from by
          simp [commonPfx]] at ha hb ⊢
        simp only [List.length_cons, List.getD_cons_succ] at ha hb ⊢
        exact ih (by omega) (by omega)
      · rw [show commonPfx (x :: xs) (y :: ys) = [] from by simp [commonPfx, hxy]]
        simpa [List.getD_cons_zero] using hxy

theorem drop_eq_getD_cons {l : Path} {i : Nat} (h : i < l.length) :
    l.drop i = l.getD i 0 :: l.drop (i + 1) := by
  induction l generalizing i with
  | nil => simp at h
  | cons a as ih =>
    cases i with
    | zero => simp
    | succ j =>
      simp only [List.drop_succ_cons, List.getD_cons_succ]
      exact ih (by simpa using h)

theorem validPath_iff (p : Path) : validPath p = true ↔ ∀ x ∈ p, x < 16 := by
  simp [validPath]

theorem validPath_getD {p : Path} (h : validPath p = true) {i : Nat}
    (hi : i < p.length) : p.getD i 0 < 16 := by
  rw [validPath_iff] at h
  have hm : p.getD i 0 ∈ p := by
    rw [List.getD_eq_getElem?_getD, List.getElem?_eq_getElem hi]
    exact List.getElem_mem hi
  exact h _ hm

theorem validPath_sublist {p q : Path} (h : validPath p = true)
    (hs : ∀ x ∈ q, x ∈ p) : validPath q = true := by
  rw [validPath_iff] at h ⊢
  exact fun x hx => h x (hs x hx)

theorem validPath_drop {p : Path} (h : validPath p = true) (i : Nat) :
    validPath (p.drop i) = true :=
  validPath_sublist h (fun _ hx => List.drop_subset _ _ hx)

theorem validPath_of_startsWith {p c : Path} (h : validPath p = true)
    (hs : startsWith p c = true) : validPath c = true := by
  refine validPath_sublist h (fun x hx => ?_)
  rw [← append_drop_of_startsWith hs]
  exact List.mem_append_left _ hx

theorem validPath_commonPfx_left {a b : Path} (h : validPath a = true) :
    validPath (commonPfx a b) = true :=
  validPath_of_startsWith h (commonPfx_startsWith_left a b)

theorem validPath_append {a b : Path} (ha : validPath a = true)
    (hb : validPath b = true) : validPath (a ++ b) = true := by
  rw [validPath_iff] at *
  intro x hx
  rcases List.mem_append.mp hx with h | h
  · exact ha x h
  · exact hb x h

theorem validPath_cons {i : Nat} {p : Path} (hi : i < 16)
    (hp : validPath p = true) : validPath (i :: p) = true := by
  rw [validPath_iff] at *
  intro x hx
  rcases List.mem_cons.mp hx with h | h
  · omega
  · exact hp x h

theorem fromKey_valid {k : List Nat} (h : validKey k = true) :
    validPath (fromKey k) = true := by
  induction k with
  | nil => rfl
  | cons b bs ih =>
    simp only [validKey, List.all_cons, Bool.and_eq_true, decide_eq_true_eq] at h
    obtain ⟨hb, hbs⟩ := h
    refine validPath_cons (by omega) (validPath_cons (by omega) (ih hbs))

theorem getP_null (path : Path) : getPathByPointer path .Null = none := by
  simp [getPathByPointer]

theorem getP_ptr (path : Path) (n : Node) :
    getPathByPointer path (.Pointer n) = getPathByNode path n := by
  simp [getPathByPointer]

theorem getP_emb (path : Path) (n : Node) :
    getPathByPointer path (.Embedded n) = getPathByNode path n := by
  simp [getPathByPointer]

theorem getP_deref {path : Path} {p : NodePointer} {n : Node}
    (h : derefNodePointer p = some n) :
    getPathByPointer path p = getPathByNode path n := by
  cases p with
  | Null => simp [derefNodePointer] at h
  | Pointer m =>
    simp only [derefNodePointer, Option.some.injEq] at h
    subst h
    simp [getPathByPointer]
  | Embedded m =>
    simp only [derefNodePointer, Option.some.injEq] at h
    subst h
    simp [getPathByPointer]

theorem getN_branch_nil (cs : List NodePointer) (v : Option (List Nat)) :
    getPathByNode [] (.Branch cs v) = v := by
  simp [getPathByNode]

theorem getN_branch_cons (i : Nat) (rest : Path) (cs : List NodePointer)
    (v : Option (List Nat)) :
    getPathByNode (i :: rest) (.Branch cs v) =
      getPathByPointer rest (cs.getD i .Null) := by
  simp [getPathByNode]

theorem getN_leaf (path np : Path) (v : List Nat) :
    getPathByNode path (.Leaf np v) = if np = path then some v else none := by
  simp [getPathByNode]

theorem getN_ext (path np : Path) (q : NodePointer) :
    getPathByNode path (.Extension np q) =
      if startsWith path np then getPathByPointer (path.drop np.length) q
      else none := by
  simp [getPathByNode]

theorem insP_null (path : Path) (v : List Nat) :
    insertPathByPointer path v .Null = .ok (insertNode (.Leaf path v)) := by
  simp [insertPathByPointer]

theorem insP_ptr (path : Path) (v : List Nat) (n : Node) :
    insertPathByPointer path v (.Pointer n) =
      (insertPathByNode path v n).map insertNode := by
  simp [insertPathByPointer]

theorem insP_emb (path : Path) (v : List Nat) (n : Node) :
    insertPathByPointer path v (.Embedded n) =
      (insertPathByNode path v n).map insertNode := by
  simp [insertPathByPointer]

theorem insN_branch_nil {cs : List NodePointer} (h : cs.isEmpty = false)
    (v : List Nat) (w : Option (List Nat)) :
    insertPathByNode [] v (.Branch cs w) = .error () := by
  unfold insertPathByNode
  simp [h]

theorem insN_branch_cons {cs : List NodePointer} (h : cs.isEmpty = false)
    (i : Nat) (rest : Path) (v : List Nat) (w : Option (List Nat)) :
    insertPathByNode (i :: rest) v (.Branch cs w) =
      match insertPathByPointer rest v (cs.getD i .Null) with
      | .error e => .error e
      | .ok p => .ok (.Branch (cs.set i p) w) := by
  unfold insertPathByNode
  simp [h]

theorem insN_leaf_eq {path np : Path} (h : path = np) (v nv : List Nat) :
    insertPathByNode path v (.Leaf np nv) = .ok (.Leaf path v) := by
  unfold insertPathByNode
  simp [h]

theorem insN_leaf_ne {path np : Path} (h : ¬ path = np) (v nv : List Nat) :
    insertPathByNode path v (.Leaf np nv) =
      match addLeaf (commonPfx np path) (nullChildren, none) np nv with
      | none => .error ()
      | some st1 =>
        match addLeaf (commonPfx np path) st1 path v with
        | none => .error ()
        | some (tc, tv) =>
          if (commonPfx np path).length > 0 then
            .ok (.Extension (commonPfx np path) (insertNode (.Branch tc tv)))
          else .ok (.Branch tc tv) := by
  unfold insertPathByNode
  simp [h]

theorem insN_ext_sw {path np : Path} (h : startsWith path np = true)
    (v : List Nat) (q : NodePointer) :
    insertPathByNode path v (.Extension np q) =
      match insertPathByPointer (path.drop np.length) v q with
      | .error e => .error e
      | .ok p => .ok (.Extension np p) := by
  unfold insertPathByNode
  simp [h]

theorem insN_ext_split {path np : Path} (h : startsWith path np = false)
    (v : List Nat) (q : NodePointer) :
    insertPathByNode path v (.Extension np q) =
      if (commonPfx np path).length < np.length then
        (if (commonPfx np path).length > 0 then
          .ok (.Extension (commonPfx np path) (insertNode (.Branch
            (extSplit np path v q).1 (extSplit np path v q).2)))
        else .ok (.Branch (extSplit np path v q).1 (extSplit np path v q).2))
      else .error () := by
  unfold insertPathByNode extSplit
  simp [h]

theorem remP_null (path : Path) : removePathByPointer path .Null = .ok none := by
  simp [removePathByPointer]

theorem remP_ptr (path : Path) (n : Node) :
    removePathByPointer path (.Pointer n) = removePathByNode path n := by
  simp [removePathByPointer]

theorem remP_emb (path : Path) (n : Node) :
    removePathByPointer path (.Embedded n) = removePathByNode path n := by
  simp [removePathByPointer]

theorem remP_deref {path : Path} {p : NodePointer} {n : Node}
    (h : derefNodePointer p = some n) :
    removePathByPointer path p = removePathByNode path n := by
  cases p with
  | Null => simp [derefNodePointer] at h
  | Pointer m =>
    simp only [derefNodePointer, Option.some.injEq] at h
    subst h
    simp [removePathByPointer]
  | Embedded m =>
    simp only [derefNodePointer, Option.some.injEq] at h
    subst h
    simp [removePathByPointer]

theorem remN_branch_nil (cs : List NodePointer) (w : Option (List Nat)) :
    removePathByNode [] (.Branch cs w) = collapseBranch cs none := by
  simp [removePathByNode]

theorem remN_branch_cons (i : Nat) (rest : Path) (cs : List NodePointer)
    (w : Option (List Nat)) :
    removePathByNode (i :: rest) (.Branch cs w) =
      match removePathByPointer rest (cs.getD i .Null) with
      | .error e => .error e
      | .ok (some n) => .ok (some (.Branch (cs.set i (insertNode n)) w))
      | .ok none => collapseBranch (cs.set i .Null) w := by
  simp [removePathByNode]

theorem remN_leaf (path np : Path) (nv : List Nat) :
    removePathByNode path (.Leaf np nv) =
      if path = np then .ok none else .ok (some (.Leaf np nv)) := by
  by_cases h : path = np <;> simp [removePathByNode, h]

theorem remN_ext_sw {path np : Path} (h : startsWith path np = true)
    (q : NodePointer) :
    removePathByNode path (.Extension np q) =
      match removePathByPointer (path.drop np.length) q with
      | .error e => .error e
      | .ok (some (.Branch cs v)) =>
        .ok (some (.Extension np (insertNode (.Branch cs v))))
      | .ok (some (.Leaf p v)) => .ok (some (.Leaf (np ++ p) v))
      | .ok (some (.Extension p q')) => .ok (some (.Extension (np ++ p) q'))
      | .ok none => .ok none := by
  unfold removePathByNode
  simp [h]

theorem remN_ext_nsw {path np : Path} (h : startsWith path np = false)
    (q : NodePointer) :
    removePathByNode path (.Extension np q) = .ok (some (.Extension np q)) := by
  unfold removePathByNode
  simp [h]

theorem canonical_leaf (p : Path) (v : List Nat) :
    canonicalNode (.Leaf p v) = validPath p := by
  simp [canonicalNode]

theorem canonical_ext (p : Path) (q : NodePointer) :
    canonicalNode (.Extension p q) =
      (!p.isEmpty && validPath p && canonicalExtTarget q) := by
  simp [canonicalNode]

theorem canonical_branch (cs : List NodePointer) (v : Option (List Nat)) :
    canonicalNode (.Branch cs v) =
      (decide (cs.length = 16) && canonicalChildren cs &&
        decide (2 ≤ childCount cs v)) := by
  simp [canonicalNode]

theorem canonicalPtr_null : canonicalPtr .Null = true := by
  simp [canonicalPtr]

theorem insertNode_deref (n : Node) : derefNodePointer (insertNode n) = some n := by
  unfold insertNode
  by_cases h : n.is_embeddable <;> simp [h, derefNodePointer]

theorem insertNode_ne_null (n : Node) : insertNode n ≠ .Null := by
  unfold insertNode
  by_cases h : n.is_embeddable <;> simp [h]

theorem canonicalPtr_insertNode (n : Node) :
    canonicalPtr (insertNode n) = canonicalNode n := by
  unfold insertNode
  by_cases h : n.is_embeddable <;> simp [h, canonicalPtr]

theorem canonicalExtTarget_insertNode_branch (cs : List NodePointer)
    (v : Option (List Nat)) :
    canonicalExtTarget (insertNode (.Branch cs v)) = canonicalNode (.Branch cs v) := by
  unfold insertNode
  by_cases h : (Node.Branch cs v).is_embeddable <;>
    simp [h, canonicalExtTarget, isBranch]

theorem insertNode_eq_of_canonicalPtr {q : NodePointer} {n : Node}
    (hc : canonicalPtr q = true) (hd : derefNodePointer q = some n) :
    insertNode n = q := by
  cases q with
  | Null => simp [derefNodePointer] at hd
  | Pointer m =>
    simp only [derefNodePointer, Option.some.injEq] at hd
    subst hd
    simp only [canonicalPtr, Bool.and_eq_true, Bool.not_eq_true'] at hc
    simp [insertNode, hc.1]
  | Embedded m =>
    simp only [derefNodePointer, Option.some.injEq] at hd
    subst hd
    simp only [canonicalPtr, Bool.and_eq_true] at hc
    simp [insertNode, hc.1]

theorem canonicalNode_of_deref {q : NodePointer} {n : Node}
    (hc : canonicalPtr q = true) (hd : derefNodePointer q = some n) :
    canonicalNode n = true := by
  cases q with
  | Null => simp [derefNodePointer] at hd
  | Pointer m =>
    simp only [derefNodePointer, Option.some.injEq] at hd
    subst hd
    simp only [canonicalPtr, Bool.and_eq_true] at hc
    exact hc.2
  | Embedded m =>
    simp only [derefNodePointer, Option.some.injEq] at hd
    subst hd
    simp only [canonicalPtr, Bool.and_eq_true] at hc
    exact hc.2

theorem canonicalExtTarget_elim {q : NodePointer} (h : canonicalExtTarget q = true) :
    ∃ cs v, derefNodePointer q = some (.Branch cs v) ∧
      canonicalNode (.Branch cs v) = true ∧ insertNode (.Branch cs v) = q := by
  cases q with
  | Null => simp [canonicalExtTarget] at h
  | Pointer n =>
    simp only [canonicalExtTarget, Bool.and_eq_true, Bool.not_eq_true'] at h
    obtain ⟨⟨hemb, hbr⟩, hcan⟩ := h
    cases n with
    | Branch cs v => exact ⟨cs, v, rfl, hcan, by simp [insertNode, hemb]⟩
    | Leaf _ _ => simp [isBranch] at hbr
    | Extension _ _ => simp [isBranch] at hbr
  | Embedded n =>
    simp only [canonicalExtTarget, Bool.and_eq_true] at h
    obtain ⟨⟨hemb, hbr⟩, hcan⟩ := h
    cases n with
    | Branch cs v => exact ⟨cs, v, rfl, hcan, by simp [insertNode, hemb]⟩
    | Leaf _ _ => simp [isBranch] at hbr
    | Extension _ _ => simp [isBranch] at hbr

theorem canonicalPtr_of_extTarget {q : NodePointer}
    (h : canonicalExtTarget q = true) : canonicalPtr q = true := by
  cases q with
  | Null => simp [canonicalExtTarget] at h
  | Pointer n =>
    simp only [canonicalExtTarget, Bool.and_eq_true] at h
    simp [canonicalPtr, h.1.1, h.2]
  | Embedded n =>
    simp only [canonicalExtTarget, Bool.and_eq_true] at h
    simp [canonicalPtr, h.1.1, h.2]

theorem extTarget_ne_null {q : NodePointer} (h : canonicalExtTarget q = true) :
    q ≠ .Null := by
  cases q with
  | Null => simp [canonicalExtTarget] at h
  | Pointer n => simp
  | Embedded n => simp

theorem canonicalChildren_iff (cs : List NodePointer) :
    canonicalChildren cs = true ↔ ∀ c ∈ cs, canonicalPtr c = true := by
  induction cs with
  | nil => simp [canonicalChildren]
  | cons c cs ih =>
    simp only [canonicalChildren, Bool.and_eq_true, ih, List.mem_cons]
    constructor
    · rintro ⟨h1, h2⟩ x (rfl | hx)
      · exact h1
      · exact h2 x hx
    · intro h
      exact ⟨h c (Or.inl rfl), fun x hx => h x (Or.inr hx)⟩

theorem canonicalChildren_getD {cs : List NodePointer}
    (h : canonicalChildren cs = true) (i : Nat) :
    canonicalPtr (cs.getD i .Null) = true := by
  rw [canonicalChildren_iff] at h
  by_cases hi : i < cs.length
  · refine h _ ?_
    rw [List.getD_eq_getElem?_getD, List.getElem?_eq_getElem hi]
    exact List.getElem_mem hi
  · rw [List.getD_eq_getElem?_getD, List.getElem?_eq_none (by omega)]
    exact canonicalPtr_null

theorem canonicalChildren_set {cs : List NodePointer}
    (h : canonicalChildren cs = true) {x : NodePointer}
    (hx : canonicalPtr x = true) (i : Nat) :
    canonicalChildren (cs.set i x) = true := by
  rw [canonicalChildren_iff] at h ⊢
  intro c hc
  rcases List.mem_or_eq_of_mem_set hc with hm | rfl
  · exact h c hm
  · exact hx

theorem canonicalChildren_replicate (n : Nat) :
    canonicalChildren (List.replicate n .Null) = true := by
  rw [canonicalChildren_iff]
  intro c hc
  rw [List.eq_of_mem_replicate hc]
  exact canonicalPtr_null

theorem nonNullCount_replicate_set {n i : Nat} (x : NodePointer) (h : i < n) :
    nonNullCount ((List.replicate n .Null).set i x) = ptrWeight x := by
  have hset := nonNullCount_set (List.replicate n .Null) i x (by simpa using h)
  rw [getD_replicate_self, nonNullCount_replicate_null] at hset
  simpa [ptrWeight] using hset

theorem sizeOf_deref_lt {q : NodePointer} {n : Node}
    (h : derefNodePointer q = some n) : sizeOf n < sizeOf q := by
  cases q with
  | Null => simp [derefNodePointer] at h
  | Pointer m =>
    simp only [derefNodePointer, Option.some.injEq] at h
    subst h
    simp
  | Embedded m =>
    simp only [derefNodePointer, Option.some.injEq] at h
    subst h
    simp

theorem insP_deref {path : Path} {v : List Nat} {q : NodePointer} {n : Node}
    (h : derefNodePointer q = some n) :
    insertPathByPointer path v q = (insertPathByNode path v n).map insertNode := by
  cases q with
  | Null => simp [derefNodePointer] at h
  | Pointer m =>
    simp only [derefNodePointer, Option.some.injEq] at h
    subst h
    exact insP_ptr path v m
  | Embedded m =>
    simp only [derefNodePointer, Option.some.injEq] at h
    subst h
    exact insP_emb path v m

theorem insertP_ne_null {path : Path} {v : List Nat} {q p' : NodePointer}
    (h : insertPathByPointer path v q = .ok p') : p' ≠ .Null := by
  cases q with
  | Null =>
    rw [insP_null] at h
    cases h
    exact insertNode_ne_null _
  | Pointer n =>
    rw [insP_ptr] at h
    cases hm : insertPathByNode path v n with
    | error e => rw [hm] at h; simp [Except.map] at h
    | ok m =>
      rw [hm] at h
      simp only [Except.map] at h
      cases h
      exact insertNode_ne_null _
  | Embedded n =>
    rw [insP_emb] at h
    cases hm : insertPathByNode path v n with
    | error e => rw [hm] at h; simp [Except.map] at h
    | ok m =>
      rw [hm] at h
      simp only [Except.map] at h
      cases h
      exact insertNode_ne_null _

theorem insert_branch_shape {path : Path} {v : List Nat} {cs : List NodePointer}
    {w : Option (List Nat)} {m : Node}
    (h : insertPathByNode path v (.Branch cs w) = .ok m) :
    ∃ cs' w', m = .Branch cs' w' := by
  by_cases he : cs.isEmpty
  · unfold insertPathByNode at h
    rw [if_pos he] at h
    cases h
    exact ⟨cs, some v, rfl⟩
  · rw [Bool.not_eq_true] at he
    cases path with
    | nil => rw [insN_branch_nil he] at h; cases h
    | cons i rest =>
      rw [insN_branch_cons he] at h
      cases hp : insertPathByPointer rest v (cs.getD i .Null) with
      | error e => rw [hp] at h; cases h
      | ok p =>
        rw [hp] at h
        cases h
        exact ⟨cs.set i p, w, rfl⟩

theorem isEmpty_false_of_length {cs : List NodePointer} (h : cs.length = 16) :
    cs.isEmpty = false := by
  cases cs with
  | nil => simp at h
  | cons c cs' => rfl

theorem eq_of_startsWith_length {p c : Path} (h : startsWith p c = true)
    (hl : c.length = p.length) : c = p := by
  have hd := append_drop_of_startsWith h
  rw [hl, List.drop_length, List.append_nil] at hd
  exact hd

theorem validPath_head {i : Nat} {rest : Path}
    (h : validPath (i :: rest) = true) : i < 16 ∧ validPath rest = true := by
  rw [validPath_iff] at h
  refine ⟨h i (List.mem_cons_self _ _), ?_⟩
  rw [validPath_iff]
  exact fun x hx => h x (List.mem_cons_of_mem _ hx)

theorem ptrWeight_one_of_ne_null {p : NodePointer} (h : p ≠ .Null) :
    ptrWeight p = 1 := by
  cases p with
  | Null => exact absurd rfl h
  | Pointer n => rfl
  | Embedded n => rfl

theorem isEmpty_false_of_pos {l : Path} (h : 0 < l.length) : l.isEmpty = false := by
  cases l with
  | nil => simp at h
  | cons a as => rfl

theorem addLeaf_move {c p : Path} (h : c.length = p.length)
    (st1 : List NodePointer) (v : List Nat) :
    addLeaf c (st1, none) p v = some (st1, some v) := by
  unfold addLeaf
  simp [h]

theorem addLeaf_child {c p : Path} (h : ¬ c.length = p.length)
    (tc : List NodePointer) (tv : Option (List Nat)) (v : List Nat) :
    addLeaf c (tc, tv) p v =
      some (tc.set (p.getD c.length 0)
        (insertNode (.Leaf (p.drop (c.length + 1)) v)), tv) := by
  unfold addLeaf
  simp [h]

theorem ptrWeight_insertNode (n : Node) : ptrWeight (insertNode n) = 1 :=
  ptrWeight_one_of_ne_null (insertNode_ne_null n)

/-- The branch node built by the leaf-split case of insert is canonical. -/
theorem splitBranch_canonical_two {i₀ i₁ : Nat} {p₀ p₁ : NodePointer}
    (h₀ : i₀ < 16) (h₁ : i₁ < 16) (hne : i₀ ≠ i₁)
    (hc₀ : canonicalPtr p₀ = true) (hc₁ : canonicalPtr p₁ = true)
    (hn₀ : p₀ ≠ .Null) (hn₁ : p₁ ≠ .Null) :
    canonicalNode (.Branch ((nullChildren.set i₀ p₀).set i₁ p₁) none) = true := by
  rw [canonical_branch]
  simp only [Bool.and_eq_true, decide_eq_true_eq]
  have hl : nullChildren.length = 16 := by simp [nullChildren]
  refine ⟨⟨by simp [hl], ?_⟩, ?_⟩
  · exact canonicalChildren_set
      (canonicalChildren_set (canonicalChildren_replicate 16) hc₀ i₀) hc₁ i₁
  · have hc1 : nonNullCount (nullChildren.set i₀ p₀) = 1 := by
      rw [nullChildren]
      rw [nonNullCount_replicate_set p₀ h₀]
      exact ptrWeight_one_of_ne_null hn₀
    have hlen1 : (nullChildren.set i₀ p₀).length = 16 := by simp [hl]
    have h2 := nonNullCount_set (nullChildren.set i₀ p₀) i₁ p₁ (by omega)
    have hgd : (nullChildren.set i₀ p₀).getD i₁ .Null = .Null := by
      rw [getD_set_ne _ _ _ _ _ hne, nullChildren, getD_replicate_self]
    rw [hgd, hc1, ptrWeight_one_of_ne_null hn₁,
      show ptrWeight NodePointer.Null = 0 from rfl] at h2
    have hcc : childCount ((nullChildren.set i₀ p₀).set i₁ p₁) none =
        nonNullCount ((nullChildren.set i₀ p₀).set i₁ p₁) := rfl
    rw [hcc]
    omega

/-- The branch node built by the one-child-plus-value cases of the split is
canonical. -/
theorem splitBranch_canonical_one {i₀ : Nat} {p₀ : NodePointer} {v : List Nat}
    (h₀ : i₀ < 16) (hc₀ : canonicalPtr p₀ = true) (hn₀ : p₀ ≠ .Null) :
    canonicalNode (.Branch (nullChildren.set i₀ p₀) (some v)) = true := by
  rw [canonical_branch]
  simp only [Bool.and_eq_true, decide_eq_true_eq]
  have hl : nullChildren.length = 16 := by simp [nullChildren]
  refine ⟨⟨by simp [hl], ?_⟩, ?_⟩
  · exact canonicalChildren_set (canonicalChildren_replicate 16) hc₀ i₀
  · have hc1 : nonNullCount (nullChildren.set i₀ p₀) = 1 := by
      rw [nullChildren, nonNullCount_replicate_set p₀ h₀]
      exact ptrWeight_one_of_ne_null hn₀
    have hcc : childCount (nullChildren.set i₀ p₀) (some v) =
        nonNullCount (nullChildren.set i₀ p₀) + 1 := rfl
    rw [hcc]
    omega

/-- The branch node built by the extension-split case of insert is canonical. -/
theorem extSplit_canonical {np path : Path} {v : List Nat} {q : NodePointer}
    (hvnp : validPath np = true) (hv : validPath path = true)
    (hq : canonicalExtTarget q = true)
    (hlt : (commonPfx np path).length < np.length) :
    canonicalNode (.Branch (extSplit np path v q).1 (extSplit np path v q).2) = true := by
  unfold extSplit
  have hi₀ : np.getD (commonPfx np path).length 0 < 16 := validPath_getD hvnp hlt
  by_cases hre : (np.drop ((commonPfx np path).length + 1)).isEmpty
  · simp only [hre, if_true]
    by_cases hpl : (commonPfx np path).length = path.length
    · rw [if_pos hpl]
      exact splitBranch_canonical_one hi₀ (canonicalPtr_of_extTarget hq)
        (extTarget_ne_null hq)
    · simp only [if_neg hpl]
      have hltp : (commonPfx np path).length < path.length := by
        have := commonPfx_length_le_right np path
        omega
      exact splitBranch_canonical_two hi₀ (validPath_getD hv hltp)
        (commonPfx_getD_ne hlt hltp) (canonicalPtr_of_extTarget hq)
        (by rw [canonicalPtr_insertNode, canonical_leaf]; exact validPath_drop hv _)
        (extTarget_ne_null hq) (insertNode_ne_null _)
  · simp only [hre, if_false]
    have hcy : canonicalPtr
        (insertNode (.Extension (np.drop ((commonPfx np path).length + 1)) q)) = true := by
      rw [canonicalPtr_insertNode, canonical_ext]
      simp only [Bool.and_eq_true, Bool.not_eq_true']
      refine ⟨⟨by simpa using hre, validPath_drop hvnp _⟩, hq⟩
    by_cases hpl : (commonPfx np path).length = path.length
    · rw [if_pos hpl]
      exact splitBranch_canonical_one hi₀ hcy (insertNode_ne_null _)
    · simp only [if_neg hpl]
      have hltp : (commonPfx np path).length < path.length := by
        have := commonPfx_length_le_right np path
        omega
      exact splitBranch_canonical_two hi₀ (validPath_getD hv hltp)
        (commonPfx_getD_ne hlt hltp) hcy
        (by rw [canonicalPtr_insertNode, canonical_leaf]; exact validPath_drop hv _)
        (insertNode_ne_null _) (insertNode_ne_null _)

mutual
theorem noExt_of_canonical : ∀ n : Node, canonicalNode n = true →
    noExtExtLeaf n = true
  | .Leaf _ _, _ => by simp [noExtExtLeaf]
  | .Extension p q, h => by
    rw [canonical_ext] at h
    simp only [Bool.and_eq_true] at h
    obtain ⟨_, hq⟩ := h
    unfold noExtExtLeaf
    simp only [Bool.and_eq_true]
    refine ⟨noExtPtr_of_canonical q (canonicalPtr_of_extTarget hq), ?_⟩
    cases q with
    | Null => simp
    | Pointer n =>
      simp only [canonicalExtTarget, Bool.and_eq_true] at hq
      simp [hq.1.2]
    | Embedded n =>
      simp only [canonicalExtTarget, Bool.and_eq_true] at hq
      simp [hq.1.2]
  | .Branch cs v, h => by
    rw [canonical_branch] at h
    simp only [Bool.and_eq_true] at h
    unfold noExtExtLeaf
    exact noExtChildren_of_canonical cs h.1.2

theorem noExtPtr_of_canonical : ∀ q : NodePointer, canonicalPtr q = true →
    noExtExtLeafPtr q = true
  | .Null, _ => by simp [noExtExtLeafPtr]
  | .Pointer n, h => by
    simp only [canonicalPtr, Bool.and_eq_true] at h
    unfold noExtExtLeafPtr
    exact noExt_of_canonical n h.2
  | .Embedded n, h => by
    simp only [canonicalPtr, Bool.and_eq_true] at h
    unfold noExtExtLeafPtr
    exact noExt_of_canonical n h.2

theorem noExtChildren_of_canonical : ∀ cs : List NodePointer,
    canonicalChildren cs = true → noExtExtLeafChildren cs = true
  | [], _ => by simp [noExtExtLeafChildren]
  | c :: cs, h => by
    simp only [canonicalChildren, Bool.and_eq_true] at h
    unfold noExtExtLeafChildren
    simp only [Bool.and_eq_true]
    exact ⟨noExtPtr_of_canonical c h.1, noExtChildren_of_canonical cs h.2⟩
end

mutual
theorem insertP_canonical : ∀ (path : Path) (v : List Nat) (q p' : NodePointer),
    canonicalPtr q = true → validPath path = true →
    insertPathByPointer path v q = .ok p' → canonicalPtr p' = true
  | path, v, .Null, p', _, hv, h => by
    rw [insP_null] at h
    cases h
    rw [canonicalPtr_insertNode, canonical_leaf]
    exact hv
  | path, v, .Pointer n, p', hq, hv, h => by
    rw [insP_ptr] at h
    cases hm : insertPathByNode path v n with
    | error e => rw [hm] at h; simp [Except.map] at h
    | ok m =>
      rw [hm] at h
      simp only [Except.map] at h
      cases h
      rw [canonicalPtr_insertNode]
      have hn : canonicalNode n = true := by
        simp only [canonicalPtr, Bool.and_eq_true] at hq
        exact hq.2
      exact insertN_canonical path v n m hn hv hm
  | path, v, .Embedded n, p', hq, hv, h => by
    rw [insP_emb] at h
    cases hm : insertPathByNode path v n with
    | error e => rw [hm] at h; simp [Except.map] at h
    | ok m =>
      rw [hm] at h
      simp only [Except.map] at h
      cases h
      rw [canonicalPtr_insertNode]
      have hn : canonicalNode n = true := by
        simp only [canonicalPtr, Bool.and_eq_true] at hq
        exact hq.2
      exact insertN_canonical path v n m hn hv hm
termination_by path v q _ _ _ _ => sizeOf q
decreasing_by all_goals simp_arith

theorem insertN_canonical : ∀ (path : Path) (v : List Nat) (n m : Node),
    canonicalNode n = true → validPath path = true →
    insertPathByNode path v n = .ok m → canonicalNode m = true
  | path, v, .Branch cs w, m, hc, hv, h => by
    rw [canonical_branch] at hc
    simp only [Bool.and_eq_true, decide_eq_true_eq] at hc
    obtain ⟨⟨hlen, hch⟩, hcount⟩ := hc
    have he := isEmpty_false_of_length hlen
    cases path with
    | nil => rw [insN_branch_nil he] at h; cases h
    | cons i rest =>
      obtain ⟨hi, hrest⟩ := validPath_head hv
      rw [insN_branch_cons he] at h
      cases hp : insertPathByPointer rest v (cs.getD i .Null) with
      | error e => rw [hp] at h; cases h
      | ok p =>
        rw [hp] at h
        cases h
        have hpc : canonicalPtr p = true :=
          insertP_canonical rest v _ p (canonicalChildren_getD hch i) hrest hp
        rw [canonical_branch]
        simp only [Bool.and_eq_true, decide_eq_true_eq]
        refine ⟨⟨by simp [hlen], canonicalChildren_set hch hpc i⟩, ?_⟩
        have hpn : p ≠ .Null := insertP_ne_null hp
        have hset := nonNullCount_set cs i p (by omega)
        rw [ptrWeight_one_of_ne_null hpn] at hset
        have hwold : ptrWeight (cs.getD i .Null) ≤ 1 := by
          cases cs.getD i .Null <;> simp [ptrWeight]
        cases w with
        | none =>
          rw [show childCount (cs.set i p) none = nonNullCount (cs.set i p) from rfl]
          rw [show childCount cs none = nonNullCount cs from rfl] at hcount
          omega
        | some wv =>
          rw [show childCount (cs.set i p) (some wv) =
            nonNullCount (cs.set i p) + 1 from rfl]
          rw [show childCount cs (some wv) = nonNullCount cs + 1 from rfl] at hcount
          omega
  | path, v, .Leaf np nv, m, hc, hv, h => by
    rw [canonical_leaf] at hc
    by_cases hp : path = np
    · rw [insN_leaf_eq hp] at h
      cases h
      rw [canonical_leaf]
      exact hv
    · rw [insN_leaf_ne hp] at h
      have hcle1 : (commonPfx np path).length ≤ np.length :=
        commonPfx_length_le_left np path
      have hcle2 : (commonPfx np path).length ≤ path.length :=
        commonPfx_length_le_right np path
      have hvc : validPath (commonPfx np path) = true := validPath_commonPfx_left hc
      by_cases h1 : (commonPfx np path).length = np.length
      · by_cases h2 : (commonPfx np path).length = path.length
        · exfalso
          have hnp := eq_of_startsWith_length (commonPfx_startsWith_left np path) h1
          have hpa := eq_of_startsWith_length (commonPfx_startsWith_right np path) h2
          exact hp (hpa.symm.trans hnp)
        · simp only [addLeaf_move h1] at h
          simp only [addLeaf_child h2] at h
          have hltp : (commonPfx np path).length < path.length := by omega
          have hbranch : canonicalNode (.Branch
              (nullChildren.set (path.getD (commonPfx np path).length 0)
                (insertNode (.Leaf (path.drop ((commonPfx np path).length + 1)) v)))
              (some nv)) = true := by
            refine splitBranch_canonical_one (validPath_getD hv hltp) ?_
              (insertNode_ne_null _)
            rw [canonicalPtr_insertNode, canonical_leaf]
            exact validPath_drop hv _
          by_cases hl : (commonPfx np path).length > 0
          · rw [if_pos hl] at h
            cases h
            rw [canonical_ext]
            simp only [Bool.and_eq_true, Bool.not_eq_true']
            exact ⟨⟨isEmpty_false_of_pos hl, hvc⟩,
              (canonicalExtTarget_insertNode_branch _ _).trans hbranch⟩
          · rw [if_neg hl] at h
            cases h
            exact hbranch
      · have hlt1 : (commonPfx np path).length < np.length := by omega
        simp only [addLeaf_child h1] at h
        by_cases h2 : (commonPfx np path).length = path.length
        · simp only [addLeaf_move h2] at h
          have hbranch : canonicalNode (.Branch
              (nullChildren.set (np.getD (commonPfx np path).length 0)
                (insertNode (.Leaf (np.drop ((commonPfx np path).length + 1)) nv)))
              (some v)) = true := by
            refine splitBranch_canonical_one (validPath_getD hc hlt1) ?_
              (insertNode_ne_null _)
            rw [canonicalPtr_insertNode, canonical_leaf]
            exact validPath_drop hc _
          by_cases hl : (commonPfx np path).length > 0
          · rw [if_pos hl] at h
            cases h
            rw [canonical_ext]
            simp only [Bool.and_eq_true, Bool.not_eq_true']
            exact ⟨⟨isEmpty_false_of_pos hl, hvc⟩,
              (canonicalExtTarget_insertNode_branch _ _).trans hbranch⟩
          · rw [if_neg hl] at h
            cases h
            exact hbranch
        · simp only [addLeaf_child h2] at h
          have hltp : (commonPfx np path).length < path.length := by omega
          have hbranch : canonicalNode (.Branch
              ((nullChildren.set (np.getD (commonPfx np path).length 0)
                (insertNode (.Leaf (np.drop ((commonPfx np path).length + 1)) nv))).set
                (path.getD (commonPfx np path).length 0)
                (insertNode (.Leaf (path.drop ((commonPfx np path).length + 1)) v)))
              none) = true := by
            refine splitBranch_canonical_two (validPath_getD hc hlt1)
              (validPath_getD hv hltp) (commonPfx_getD_ne hlt1 hltp) ?_ ?_
              (insertNode_ne_null _) (insertNode_ne_null _)
            · rw [canonicalPtr_insertNode, canonical_leaf]
              exact validPath_drop hc _
            · rw [canonicalPtr_insertNode, canonical_leaf]
              exact validPath_drop hv _
          by_cases hl : (commonPfx np path).length > 0
          · rw [if_pos hl] at h
            cases h
            rw [canonical_ext]
            simp only [Bool.and_eq_true, Bool.not_eq_true']
            exact ⟨⟨isEmpty_false_of_pos hl, hvc⟩,
              (canonicalExtTarget_insertNode_branch _ _).trans hbranch⟩
          · rw [if_neg hl] at h
            cases h
            exact hbranch
  | path, v, .Extension np q, m, hc, hv, h => by
    rw [canonical_ext] at hc
    simp only [Bool.and_eq_true, Bool.not_eq_true'] at hc
    obtain ⟨⟨hne, hvnp⟩, hq⟩ := hc
    by_cases hs : startsWith path np = true
    · rw [insN_ext_sw hs] at h
      obtain ⟨cs, w, hderef, hcanB, hinsq⟩ := canonicalExtTarget_elim hq
      rw [insP_deref hderef] at h
      cases hm : insertPathByNode (path.drop np.length) v (.Branch cs w) with
      | error e => rw [hm] at h; simp [Except.map] at h
      | ok m₁ =>
        rw [hm] at h
        simp only [Except.map] at h
        cases h
        have hm₁c : canonicalNode m₁ = true :=
          insertN_canonical _ v _ m₁ hcanB (validPath_drop hv _) hm
        obtain ⟨cs', w', hshape⟩ := insert_branch_shape hm
        rw [canonical_ext]
        simp only [Bool.and_eq_true, Bool.not_eq_true']
        refine ⟨⟨hne, hvnp⟩, ?_⟩
        rw [hshape, canonicalExtTarget_insertNode_branch, ← hshape]
        exact hm₁c
    · have hs' : startsWith path np = false := by simpa using hs
      rw [insN_ext_split hs'] at h
      by_cases hlt : (commonPfx np path).length < np.length
      · rw [if_pos hlt] at h
        have hvc : validPath (commonPfx np path) = true :=
          validPath_commonPfx_left hvnp
        have hbranch := @extSplit_canonical np path v q hvnp hv hq hlt
        by_cases hl : (commonPfx np path).length > 0
        · rw [if_pos hl] at h
          cases h
          rw [canonical_ext]
          simp only [Bool.and_eq_true, Bool.not_eq_true']
          exact ⟨⟨isEmpty_false_of_pos hl, hvc⟩,
            (canonicalExtTarget_insertNode_branch _ _).trans hbranch⟩
        · rw [if_neg hl] at h
          cases h
          exact hbranch
      · rw [if_neg hlt] at h
        cases h
termination_by path v n _ _ _ _ => sizeOf n
decreasing_by
  · have h1 := sizeOf_getD_le cs i
    have h2 : sizeOf (Node.Branch cs w) = 1 + sizeOf cs + sizeOf w := by simp
    omega
  · have h1 := sizeOf_deref_lt hderef
    have h2 : sizeOf (Node.Extension np q) = 1 + sizeOf np + sizeOf q := by simp
    omega
end

theorem childCount_none (cs : List NodePointer) :
    childCount cs none = nonNullCount cs := rfl

theorem childCount_some (cs : List NodePointer) (v : List Nat) :
    childCount cs (some v) = nonNullCount cs + 1 := rfl

theorem collapseBranch_ok {cs : List NodePointer} {w : Option (List Nat)}
    (hlen : cs.length = 16) (hch : canonicalChildren cs = true)
    (hcount : 1 ≤ childCount cs w) :
    ∃ n', collapseBranch cs w = .ok (some n') ∧ canonicalNode n' = true := by
  unfold collapseBranch
  cases hcc : childCount cs w with
  | zero => omega
  | succ k =>
    cases k with
    | zero =>
      cases w with
      | some v =>
        refine ⟨.Leaf [] v, by simp, ?_⟩
        rw [canonical_leaf]
        rfl
      | none =>
        have hnn : nonNullCount cs = 1 := by
          rw [childCount_none] at hcc
          exact hcc
        cases hf : firstNonNull cs with
        | none =>
          rw [firstNonNull_eq_none_iff] at hf
          omega
        | some pr =>
          obtain ⟨i, mnode⟩ := pr
          obtain ⟨hilen, hderef⟩ := firstNonNull_some cs i mnode hf
          have hmc : canonicalNode mnode = true :=
            canonicalNode_of_deref (canonicalChildren_getD hch i) hderef
          have hi16 : i < 16 := by omega
          cases mnode with
          | Branch cs' v' =>
            refine ⟨.Extension [i] (insertNode (.Branch cs' v')), by simp, ?_⟩
            rw [canonical_ext]
            simp only [Bool.and_eq_true, Bool.not_eq_true']
            refine ⟨⟨rfl, validPath_cons hi16 rfl⟩, ?_⟩
            rw [canonicalExtTarget_insertNode_branch]
            exact hmc
          | Leaf p val =>
            refine ⟨.Leaf (i :: p) val, by simp, ?_⟩
            rw [canonical_leaf] at hmc ⊢
            exact validPath_cons hi16 hmc
          | Extension p q' =>
            rw [canonical_ext] at hmc
            simp only [Bool.and_eq_true, Bool.not_eq_true'] at hmc
            obtain ⟨⟨hpne, hpv⟩, hq'⟩ := hmc
            have hq'n : q' ≠ .Null := extTarget_ne_null hq'
            refine ⟨.Extension (i :: p) q', by simp [hq'n], ?_⟩
            rw [canonical_ext]
            simp only [Bool.and_eq_true, Bool.not_eq_true']
            exact ⟨⟨rfl, validPath_cons hi16 hpv⟩, hq'⟩
    | succ j =>
      refine ⟨.Branch cs w, by simp, ?_⟩
      rw [canonical_branch]
      simp only [Bool.and_eq_true, decide_eq_true_eq]
      exact ⟨⟨by simp [hlen], hch⟩, by omega⟩

theorem getD_of_ge {α : Type} (l : List α) {i : Nat} (h : l.length ≤ i) (d : α) :
    l.getD i d = d := by
  induction l generalizing i with
  | nil => simp [List.getD_nil]
  | cons a as ih =>
    cases i with
    | zero => simp at h
    | succ j =>
      rw [List.getD_cons_succ]
      exact ih (by simpa using h)

theorem canonical_branch_elim {cs : List NodePointer} {w : Option (List Nat)}
    (h : canonicalNode (.Branch cs w) = true) :
    cs.length = 16 ∧ canonicalChildren cs = true ∧ 2 ≤ childCount cs w := by
  rw [canonical_branch] at h
  simp only [Bool.and_eq_true, decide_eq_true_eq] at h
  exact ⟨h.1.1, h.1.2, h.2⟩

theorem canonical_ext_elim {np : Path} {q : NodePointer}
    (h : canonicalNode (.Extension np q) = true) :
    np.isEmpty = false ∧ validPath np = true ∧ canonicalExtTarget q = true := by
  rw [canonical_ext] at h
  simp only [Bool.and_eq_true, Bool.not_eq_true'] at h
  exact ⟨h.1.1, h.1.2, h.2⟩

theorem ne_null_lt_length {cs : List NodePointer} {i : Nat}
    (h : cs.getD i .Null ≠ .Null) : i < cs.length := by
  by_contra hge
  exact h (getD_of_ge cs (by omega) .Null)

mutual
theorem removeP_master : ∀ (path : Path) (q : NodePointer),
    canonicalPtr q = true →
    ∃ res, removePathByPointer path q = .ok res ∧
      (∀ n', res = some n' → canonicalNode n' = true) ∧
      (res = none ↔ (q = .Null ∨ ∃ v, derefNodePointer q = some (.Leaf path v)))
  | path, .Null, _ =>
    ⟨none, remP_null path, by simp, by simp⟩
  | path, .Pointer n, hq => by
    have hn : canonicalNode n = true := by
      simp only [canonicalPtr, Bool.and_eq_true] at hq
      exact hq.2
    obtain ⟨res, hres, hcan, hiff⟩ := removeN_master path n hn
    refine ⟨res, by rw [remP_ptr]; exact hres, hcan, ?_⟩
    rw [hiff]
    simp [derefNodePointer]
  | path, .Embedded n, hq => by
    have hn : canonicalNode n = true := by
      simp only [canonicalPtr, Bool.and_eq_true] at hq
      exact hq.2
    obtain ⟨res, hres, hcan, hiff⟩ := removeN_master path n hn
    refine ⟨res, by rw [remP_emb]; exact hres, hcan, ?_⟩
    rw [hiff]
    simp [derefNodePointer]
termination_by path q _ => sizeOf q
decreasing_by all_goals simp_arith

theorem removeN_master : ∀ (path : Path) (n : Node),
    canonicalNode n = true →
    ∃ res, removePathByNode path n = .ok res ∧
      (∀ n', res = some n' → canonicalNode n' = true) ∧
      (res = none ↔ ∃ v, n = Node.Leaf path v)
  | path, .Leaf np nv, hc => by
    by_cases hp : path = np
    · refine ⟨none, ?_, by simp, ?_⟩
      · rw [remN_leaf, if_pos hp]
      · subst hp
        simp
    · refine ⟨some (.Leaf np nv), ?_, ?_, ?_⟩
      · rw [remN_leaf, if_neg hp]
      · intro n' hn'
        cases hn'
        exact hc
      · constructor
        · intro hx
          cases hx
        · rintro ⟨v, hv⟩
          cases hv
          exact absurd rfl hp
  | path, .Branch cs w, hc => by
    obtain ⟨hlen, hch, hcount⟩ := canonical_branch_elim hc
    cases path with
    | nil =>
      have hnn : 1 ≤ childCount cs none := by
        rw [childCount_none]
        cases w with
        | none => rw [childCount_none] at hcount; omega
        | some wv => rw [childCount_some] at hcount; omega
      obtain ⟨n', hok, hn'c⟩ := collapseBranch_ok hlen hch hnn
      refine ⟨some n', ?_, ?_, by simp⟩
      · rw [remN_branch_nil]
        exact hok
      · intro x hx
        cases hx
        exact hn'c
    | cons i rest =>
      obtain ⟨res₁, hres₁, hcan₁, hiff₁⟩ :=
        removeP_master rest (cs.getD i .Null) (canonicalChildren_getD hch i)
      cases res₁ with
      | some n₁ =>
        have hcn₁ := hcan₁ n₁ rfl
        have hCnn : cs.getD i .Null ≠ .Null := by
          intro hnull
          exact Option.noConfusion (hiff₁.mpr (Or.inl hnull))
        have hilt : i < cs.length := ne_null_lt_length hCnn
        refine ⟨some (.Branch (cs.set i (insertNode n₁)) w), ?_, ?_, by simp⟩
        · rw [remN_branch_cons, hres₁]
        · intro x hx
          cases hx
          rw [canonical_branch]
          simp only [Bool.and_eq_true, decide_eq_true_eq]
          refine ⟨⟨by simp [hlen], canonicalChildren_set hch
            (by rw [canonicalPtr_insertNode]; exact hcn₁) i⟩, ?_⟩
          have hset := nonNullCount_set cs i (insertNode n₁) hilt
          rw [ptrWeight_insertNode, ptrWeight_one_of_ne_null hCnn] at hset
          cases w with
          | none =>
            rw [childCount_none] at hcount ⊢
            omega
          | some wv =>
            rw [childCount_some] at hcount ⊢
            omega
      | none =>
        have hcoll : 1 ≤ childCount (cs.set i .Null) w := by
          by_cases hCn : cs.getD i .Null = .Null
          · rw [set_getD_self cs i .Null .Null hCn]
            omega
          · have hilt : i < cs.length := ne_null_lt_length hCn
            have hset := nonNullCount_set cs i .Null hilt
            rw [ptrWeight_one_of_ne_null hCn,
              show ptrWeight NodePointer.Null = 0 from rfl] at hset
            cases w with
            | none =>
              rw [childCount_none] at hcount ⊢
              omega
            | some wv =>
              rw [childCount_some] at hcount ⊢
              omega
        obtain ⟨n', hok, hn'c⟩ := collapseBranch_ok (by simp [hlen])
          (canonicalChildren_set hch canonicalPtr_null i) hcoll
        refine ⟨some n', ?_, ?_, by simp⟩
        · rw [remN_branch_cons, hres₁]
          exact hok
        · intro x hx
          cases hx
          exact hn'c
  | path, .Extension np q, hc => by
    obtain ⟨hne, hvnp, hq⟩ := canonical_ext_elim hc
    by_cases hs : startsWith path np = true
    · obtain ⟨cs, w, hderef, hcanB, hinsq⟩ := canonicalExtTarget_elim hq
      obtain ⟨res₁, hres₁, hcan₁, hiff₁⟩ :=
        removeN_master (path.drop np.length) (.Branch cs w) hcanB
      cases res₁ with
      | none =>
        exfalso
        obtain ⟨v, hv⟩ := hiff₁.mp rfl
        cases hv
      | some b =>
        have hbc := hcan₁ b rfl
        cases b with
        | Branch cs' v' =>
          refine ⟨some (.Extension np (insertNode (.Branch cs' v'))), ?_, ?_, by simp⟩
          · rw [remN_ext_sw hs, remP_deref hderef, hres₁]
          · intro x hx
            cases hx
            rw [canonical_ext]
            simp only [Bool.and_eq_true, Bool.not_eq_true']
            refine ⟨⟨hne, hvnp⟩, ?_⟩
            rw [canonicalExtTarget_insertNode_branch]
            exact hbc
        | Leaf p val =>
          refine ⟨some (.Leaf (np ++ p) val), ?_, ?_, by simp⟩
          · rw [remN_ext_sw hs, remP_deref hderef, hres₁]
          · intro x hx
            cases hx
            rw [canonical_leaf] at hbc ⊢
            exact validPath_append hvnp hbc
        | Extension p q' =>
          obtain ⟨hpne, hpv, hq'⟩ := canonical_ext_elim hbc
          refine ⟨some (.Extension (np ++ p) q'), ?_, ?_, by simp⟩
          · rw [remN_ext_sw hs, remP_deref hderef, hres₁]
          · intro x hx
            cases hx
            rw [canonical_ext]
            simp only [Bool.and_eq_true, Bool.not_eq_true']
            refine ⟨⟨?_, validPath_append hvnp hpv⟩, hq'⟩
            cases np with
            | nil => simp at hne
            | cons a as => rfl
    · have hs' : startsWith path np = false := by simpa using hs
      refine ⟨some (.Extension np q), ?_, ?_, by simp⟩
      · rw [remN_ext_nsw hs']
      · intro x hx
        cases hx
        exact hc
termination_by path n _ => sizeOf n
decreasing_by
  · have h1 := sizeOf_getD_le cs i
    have h2 : sizeOf (Node.Branch cs w) = 1 + sizeOf cs + sizeOf w := by simp
    omega
  · have h1 := sizeOf_deref_lt hderef
    have h2 : sizeOf (Node.Extension np q) = 1 + sizeOf np + sizeOf q := by simp
    omega
end

theorem collapseBranch_keep {cs : List NodePointer} {w : Option (List Nat)}
    (h : 2 ≤ childCount cs w) :
    collapseBranch cs w = .ok (some (.Branch cs w)) := by
  unfold collapseBranch
  cases hcc : childCount cs w with
  | zero => omega
  | succ k =>
    cases k with
    | zero => omega
    | succ j => rfl

theorem collapseBranch_single {i : Nat} {p : NodePointer} {mnode : Node}
    (hi : i < 16) (hd : derefNodePointer p = some mnode) :
    collapseBranch (nullChildren.set i p) none =
      (match mnode with
       | .Branch cs v => .ok (some (.Extension [i] (insertNode (.Branch cs v))))
       | .Leaf pp vv => .ok (some (.Leaf (i :: pp) vv))
       | .Extension pp qq =>
         if qq = .Null then .error () else .ok (some (.Extension (i :: pp) qq))) := by
  have hpn : p ≠ .Null := by
    intro hnull
    subst hnull
    simp [derefNodePointer] at hd
  have hcount : childCount (nullChildren.set i p) none = 1 := by
    rw [childCount_none, nullChildren, nonNullCount_replicate_set p hi]
    exact ptrWeight_one_of_ne_null hpn
  have hf : firstNonNull (nullChildren.set i p) = some (i, mnode) := by
    rw [nullChildren]
    exact firstNonNull_replicate_set 16 i p mnode hi hd
  unfold collapseBranch
  rw [hcount, hf]
  cases mnode <;> rfl

theorem collapseBranch_value (v : List Nat) :
    collapseBranch nullChildren (some v) = .ok (some (.Leaf [] v)) := rfl

theorem removeN_absent : ∀ (path : Path) (n : Node),
    canonicalNode n = true → getPathByNode path n = none →
    removePathByNode path n = .ok (some n)
  | path, .Leaf np nv, hc, habs => by
    rw [getN_leaf] at habs
    have hne : ¬ np = path := by
      intro heq
      rw [if_pos heq] at habs
      cases habs
    rw [remN_leaf, if_neg (fun h => hne h.symm)]
  | path, .Branch cs w, hc, habs => by
    obtain ⟨hlen, hch, hcount⟩ := canonical_branch_elim hc
    cases path with
    | nil =>
      rw [getN_branch_nil] at habs
      subst habs
      rw [remN_branch_nil]
      rw [childCount_none] at hcount
      exact collapseBranch_keep (by rw [childCount_none]; omega)
    | cons i rest =>
      rw [getN_branch_cons] at habs
      rw [remN_branch_cons]
      cases hC : cs.getD i .Null with
      | Null =>
        simp only [remP_null]
        rw [set_getD_self cs i .Null .Null hC]
        exact collapseBranch_keep hcount
      | Pointer n₁ =>
        have hd : derefNodePointer (cs.getD i .Null) = some n₁ := by
          rw [hC]
          rfl
        have hc₁ : canonicalNode n₁ = true :=
          canonicalNode_of_deref (canonicalChildren_getD hch i) hd
        have habs₁ : getPathByNode rest n₁ = none := by
          rw [hC, getP_ptr] at habs
          exact habs
        simp only [remP_ptr, removeN_absent rest n₁ hc₁ habs₁]
        rw [show insertNode n₁ = cs.getD i .Null from
          insertNode_eq_of_canonicalPtr (canonicalChildren_getD hch i) hd]
        rw [set_getD_self cs i (cs.getD i .Null) .Null rfl]
      | Embedded n₁ =>
        have hd : derefNodePointer (cs.getD i .Null) = some n₁ := by
          rw [hC]
          rfl
        have hc₁ : canonicalNode n₁ = true :=
          canonicalNode_of_deref (canonicalChildren_getD hch i) hd
        have habs₁ : getPathByNode rest n₁ = none := by
          rw [hC, getP_emb] at habs
          exact habs
        simp only [remP_emb, removeN_absent rest n₁ hc₁ habs₁]
        rw [show insertNode n₁ = cs.getD i .Null from
          insertNode_eq_of_canonicalPtr (canonicalChildren_getD hch i) hd]
        rw [set_getD_self cs i (cs.getD i .Null) .Null rfl]
  | path, .Extension np q, hc, habs => by
    obtain ⟨hne, hvnp, hq⟩ := canonical_ext_elim hc
    by_cases hs : startsWith path np = true
    · obtain ⟨cs, w, hderef, hcanB, hinsq⟩ := canonicalExtTarget_elim hq
      rw [getN_ext, if_pos hs, getP_deref hderef] at habs
      rw [remN_ext_sw hs, remP_deref hderef,
        removeN_absent (path.drop np.length) (.Branch cs w) hcanB habs]
      show Except.ok (some (Node.Extension np (insertNode (Node.Branch cs w)))) =
        Except.ok (some (Node.Extension np q))
      rw [hinsq]
    · have hs' : startsWith path np = false := by simpa using hs
      rw [remN_ext_nsw hs']
termination_by path n _ _ => sizeOf n
decreasing_by
  · have h1 := sizeOf_getD_le cs i
    have h2 : sizeOf (Node.Branch cs w) = 1 + sizeOf cs + sizeOf w := by simp
    have h3 := sizeOf_deref_lt hd
    omega
  · have h1 := sizeOf_getD_le cs i
    have h2 : sizeOf (Node.Branch cs w) = 1 + sizeOf cs + sizeOf w := by simp
    have h3 := sizeOf_deref_lt hd
    omega
  · have h1 := sizeOf_deref_lt hderef
    have h2 : sizeOf (Node.Extension np q) = 1 + sizeOf np + sizeOf q := by simp
    omega

/-- Removal through the pointer `insert_node` returns is removal at the node
itself: both pointer variants dereference to the same node. -/
theorem remP_insertNode (path : Path) (n : Node) :
    removePathByPointer path (insertNode n) = removePathByNode path n :=
  remP_deref (insertNode_deref n)

/-- `deref_node_pointer` after `get_root_pointer` recovers the optional root. -/
theorem deref_rootPointer (r : Option Node) :
    derefNodePointer (rootPointer r) = r := by
  cases r <;> rfl

/-- Collapsing a single-leaf-child branch re-attaches the branch nibble to the
leaf path. -/
theorem collapseBranch_single_leaf {i : Nat} (hi : i < 16) (pp : Path)
    (vv : List Nat) :
    collapseBranch (nullChildren.set i (insertNode (.Leaf pp vv))) none =
      .ok (some (.Leaf (i :: pp) vv)) := by
  exact collapseBranch_single hi (insertNode_deref (.Leaf pp vv))

/-- Collapsing a single-extension-child branch re-attaches the branch nibble
to the extension path. -/
theorem collapseBranch_single_ext {i : Nat} (hi : i < 16) (pp : Path)
    {qq : NodePointer} (hq : qq ≠ .Null) :
    collapseBranch (nullChildren.set i (insertNode (.Extension pp qq))) none =
      .ok (some (.Extension (i :: pp) qq)) := by
  have h := collapseBranch_single hi (insertNode_deref (.Extension pp qq))
  rw [h]
  show (if qq = .Null then Except.error () else
      Except.ok (some (Node.Extension (i :: pp) qq))) =
    Except.ok (some (Node.Extension (i :: pp) qq))
  rw [if_neg hq]

/-- Collapsing a single-branch-child branch produces a one-nibble extension to
that branch. -/
theorem collapseBranch_single_branch {i : Nat} (hi : i < 16) {q : NodePointer}
    {cs : List NodePointer} {w : Option (List Nat)}
    (hd : derefNodePointer q = some (.Branch cs w)) :
    collapseBranch (nullChildren.set i q) none =
      .ok (some (.Extension [i] (insertNode (.Branch cs w)))) := by
  exact collapseBranch_single hi hd

theorem extSplit_move {np path : Path} {v : List Nat} {q : NodePointer}
    (h : (commonPfx np path).length = path.length) :
    extSplit np path v q = (extSplitTc0 np path q, some v) := by
  simp only [extSplit, extSplitTc0]
  rw [if_pos h]

theorem extSplit_child {np path : Path} {v : List Nat} {q : NodePointer}
    (h : ¬ (commonPfx np path).length = path.length) :
    extSplit np path v q =
      ((extSplitTc0 np path q).set (path.getD (commonPfx np path).length 0)
        (insertNode (.Leaf (path.drop ((commonPfx np path).length + 1)) v)),
       none) := by
  simp only [extSplit, extSplitTc0]
  rw [if_neg h]

theorem extSplitTc0_length (np path : Path) (q : NodePointer) :
    (extSplitTc0 np path q).length = 16 := by
  simp only [extSplitTc0]
  split <;> simp [nullChildren]

theorem extSplitTc0_getD_other {np path : Path} {q : NodePointer} {j : Nat}
    (hne : np.getD (commonPfx np path).length 0 ≠ j) :
    (extSplitTc0 np path q).getD j .Null = .Null := by
  simp only [extSplitTc0]
  split
  · rw [getD_set_ne _ _ _ _ _ hne]
    exact getD_replicate_self 16 j NodePointer.Null
  · rw [getD_set_ne _ _ _ _ _ hne]
    exact getD_replicate_self 16 j NodePointer.Null

/-- Collapsing the extension-split branch with the fresh side cleared
re-creates the old extension remainder below the split point. -/
theorem collapse_tc0 {np path : Path} {q : NodePointer}
    (hlt : (commonPfx np path).length < np.length) (hv : validPath np = true)
    (hq : canonicalExtTarget q = true) :
    collapseBranch (extSplitTc0 np path q) none =
      .ok (some (.Extension (np.drop (commonPfx np path).length) q)) := by
  obtain ⟨cs, w, hderef, hcanB, hinsq⟩ := canonicalExtTarget_elim hq
  have hb : np.getD (commonPfx np path).length 0 < 16 := validPath_getD hv hlt
  rw [drop_eq_getD_cons hlt]
  simp only [extSplitTc0]
  cases hnil : np.drop ((commonPfx np path).length + 1) with
  | nil =>
    rw [if_pos (by rfl)]
    rw [collapseBranch_single_branch hb hderef, hinsq]
  | cons a as =>
    rw [if_neg (by simp)]
    exact collapseBranch_single_ext hb (a :: as) (extTarget_ne_null hq)

/-- Removing the freshly inserted leaf child of a split branch clears its slot
and collapses the rest. -/
theorem remove_fresh_leaf_branch {path : Path} {L : Nat} {v : List Nat}
    (tc : List NodePointer) (tv : Option (List Nat)) (hltp : L < path.length)
    (hcj : tc.getD (path.getD L 0) .Null =
      insertNode (.Leaf (path.drop (L + 1)) v)) :
    removePathByNode (path.drop L) (.Branch tc tv) =
      collapseBranch (tc.set (path.getD L 0) .Null) tv := by
  rw [drop_eq_getD_cons hltp, remN_branch_cons, hcj, remP_insertNode, remN_leaf,
    if_pos rfl]

mutual
/-- Removing a freshly inserted absent path from the updated pointer restores
the node the old pointer addressed (`none` when it was `Null`). -/
theorem removeP_insert : ∀ (path : Path) (v : List Nat) (q p' : NodePointer),
    canonicalPtr q = true → validPath path = true →
    getPathByPointer path q = none →
    insertPathByPointer path v q = .ok p' →
    removePathByPointer path p' = .ok (derefNodePointer q)
  | path, v, .Null, p', _, _, _, h => by
    rw [insP_null] at h
    cases h
    rw [remP_insertNode, remN_leaf, if_pos rfl]
    rfl
  | path, v, .Pointer n, p', hq, hv, habs, h => by
    rw [insP_ptr] at h
    cases hm : insertPathByNode path v n with
    | error e => rw [hm] at h; simp [Except.map] at h
    | ok m₁ =>
      rw [hm] at h
      simp only [Except.map] at h
      cases h
      have hn : canonicalNode n = true := by
        simp only [canonicalPtr, Bool.and_eq_true] at hq
        exact hq.2
      rw [getP_ptr] at habs
      rw [remP_insertNode]
      exact removeN_insert path v n m₁ hn hv habs hm
  | path, v, .Embedded n, p', hq, hv, habs, h => by
    rw [insP_emb] at h
    cases hm : insertPathByNode path v n with
    | error e => rw [hm] at h; simp [Except.map] at h
    | ok m₁ =>
      rw [hm] at h
      simp only [Except.map] at h
      cases h
      have hn : canonicalNode n = true := by
        simp only [canonicalPtr, Bool.and_eq_true] at hq
        exact hq.2
      rw [getP_emb] at habs
      rw [remP_insertNode]
      exact removeN_insert path v n m₁ hn hv habs hm
termination_by path v q _ _ _ _ _ => sizeOf q
decreasing_by all_goals simp_arith

/-- Removing a freshly inserted absent path undoes the insertion exactly on
canonical nodes: the insert/remove round trip for keys not yet bound. -/
theorem removeN_insert : ∀ (path : Path) (v : List Nat) (n m : Node),
    canonicalNode n = true → validPath path = true →
    getPathByNode path n = none →
    insertPathByNode path v n = .ok m →
    removePathByNode path m = .ok (some n)
  | path, v, .Branch cs w, m, hc, hv, habs, h => by
    obtain ⟨hlen, hch, hcount⟩ := canonical_branch_elim hc
    have he := isEmpty_false_of_length hlen
    cases path with
    | nil => rw [insN_branch_nil he] at h; cases h
    | cons i rest =>
      obtain ⟨hi, hrest⟩ := validPath_head hv
      rw [getN_branch_cons] at habs
      rw [insN_branch_cons he] at h
      cases hp : insertPathByPointer rest v (cs.getD i .Null) with
      | error e => rw [hp] at h; cases h
      | ok p =>
        rw [hp] at h
        cases h
        have hres := removeP_insert rest v (cs.getD i .Null) p
          (canonicalChildren_getD hch i) hrest habs hp
        rw [remN_branch_cons, getD_set_eq cs i p .Null (by omega), hres]
        cases hC : cs.getD i .Null with
        | Null =>
          show collapseBranch ((cs.set i p).set i .Null) w =
            Except.ok (some (Node.Branch cs w))
          rw [set_set_same, set_getD_self cs i .Null .Null hC]
          exact collapseBranch_keep hcount
        | Pointer n₁ =>
          show Except.ok (some (Node.Branch ((cs.set i p).set i
              (insertNode n₁)) w)) =
            Except.ok (some (Node.Branch cs w))
          rw [set_set_same,
            show insertNode n₁ = cs.getD i .Null from
              insertNode_eq_of_canonicalPtr (canonicalChildren_getD hch i)
                (by rw [hC]; rfl),
            set_getD_self cs i (cs.getD i .Null) .Null rfl]
        | Embedded n₁ =>
          show Except.ok (some (Node.Branch ((cs.set i p).set i
              (insertNode n₁)) w)) =
            Except.ok (some (Node.Branch cs w))
          rw [set_set_same,
            show insertNode n₁ = cs.getD i .Null from
              insertNode_eq_of_canonicalPtr (canonicalChildren_getD hch i)
                (by rw [hC]; rfl),
            set_getD_self cs i (cs.getD i .Null) .Null rfl]
  | path, v, .Leaf np nv, m, hc, hv, habs, h => by
    rw [canonical_leaf] at hc
    rw [getN_leaf] at habs
    have hne : ¬ np = path := by
      intro heq
      rw [if_pos heq] at habs
      cases habs
    have hp : ¬ path = np := fun he => hne he.symm
    rw [insN_leaf_ne hp] at h
    have hcle1 : (commonPfx np path).length ≤ np.length :=
      commonPfx_length_le_left np path
    have hcle2 : (commonPfx np path).length ≤ path.length :=
      commonPfx_length_le_right np path
    by_cases h1 : (commonPfx np path).length = np.length
    · by_cases h2 : (commonPfx np path).length = path.length
      · exfalso
        have hnp := eq_of_startsWith_length (commonPfx_startsWith_left np path) h1
        have hpa := eq_of_startsWith_length (commonPfx_startsWith_right np path) h2
        exact hp (hpa.symm.trans hnp)
      · simp only [addLeaf_move h1] at h
        simp only [addLeaf_child h2] at h
        have hltp : (commonPfx np path).length < path.length := by omega
        have hj : path.getD (commonPfx np path).length 0 < 16 :=
          validPath_getD hv hltp
        have hcnp : commonPfx np path = np :=
          eq_of_startsWith_length (commonPfx_startsWith_left np path) h1
        have hbr : removePathByNode (path.drop (commonPfx np path).length)
            (.Branch (nullChildren.set (path.getD (commonPfx np path).length 0)
              (insertNode (.Leaf (path.drop ((commonPfx np path).length + 1)) v)))
              (some nv)) = .ok (some (.Leaf [] nv)) := by
          rw [remove_fresh_leaf_branch _ _ hltp
            (getD_set_eq _ _ _ _ (by simpa [nullChildren] using hj))]
          rw [set_set_same,
            set_getD_self nullChildren (path.getD (commonPfx np path).length 0)
              NodePointer.Null NodePointer.Null
              (getD_replicate_self 16 _ NodePointer.Null)]
          exact collapseBranch_value nv
        by_cases hl : (commonPfx np path).length > 0
        · rw [if_pos hl] at h
          cases h
          have hsw : startsWith path (commonPfx np path) = true :=
            commonPfx_startsWith_right np path
          rw [remN_ext_sw hsw, remP_insertNode, hbr]
          show Except.ok (some (Node.Leaf (commonPfx np path ++ []) nv)) =
            Except.ok (some (Node.Leaf np nv))
          rw [List.append_nil, hcnp]
        · rw [if_neg hl] at h
          cases h
          have hL0 : (commonPfx np path).length = 0 := by omega
          have hnp0 : np = [] := by
            rw [← hcnp]
            exact List.length_eq_zero.mp hL0
          rw [hL0] at hbr ⊢
          rw [hnp0]
          rw [List.drop_zero] at hbr
          exact hbr
    · have hlt1 : (commonPfx np path).length < np.length := by omega
      have hi₁ : np.getD (commonPfx np path).length 0 < 16 :=
        validPath_getD hc hlt1
      simp only [addLeaf_child h1] at h
      by_cases h2 : (commonPfx np path).length = path.length
      · simp only [addLeaf_move h2] at h
        have hbr : removePathByNode (path.drop (commonPfx np path).length)
            (.Branch (nullChildren.set (np.getD (commonPfx np path).length 0)
              (insertNode (.Leaf (np.drop ((commonPfx np path).length + 1)) nv)))
              (some v)) =
            .ok (some (.Leaf (np.drop (commonPfx np path).length) nv)) := by
          have hdp : path.drop (commonPfx np path).length = [] := by
            rw [h2, List.drop_length]
          rw [hdp, remN_branch_nil]
          rw [collapseBranch_single_leaf hi₁ _ nv]
          rw [drop_eq_getD_cons hlt1]
        by_cases hl : (commonPfx np path).length > 0
        · rw [if_pos hl] at h
          cases h
          have hsw : startsWith path (commonPfx np path) = true :=
            commonPfx_startsWith_right np path
          rw [remN_ext_sw hsw, remP_insertNode, hbr]
          show Except.ok (some (Node.Leaf (commonPfx np path ++
              np.drop (commonPfx np path).length) nv)) =
            Except.ok (some (Node.Leaf np nv))
          rw [append_drop_of_startsWith (commonPfx_startsWith_left np path)]
        · rw [if_neg hl] at h
          cases h
          have hL0 : (commonPfx np path).length = 0 := by omega
          rw [hL0] at hbr ⊢
          rw [List.drop_zero] at hbr
          exact hbr
      · simp only [addLeaf_child h2] at h
        have hltp : (commonPfx np path).length < path.length := by omega
        have hj : path.getD (commonPfx np path).length 0 < 16 :=
          validPath_getD hv hltp
        have hij : np.getD (commonPfx np path).length 0 ≠
            path.getD (commonPfx np path).length 0 :=
          commonPfx_getD_ne hlt1 hltp
        have hbr : removePathByNode (path.drop (commonPfx np path).length)
            (.Branch ((nullChildren.set (np.getD (commonPfx np path).length 0)
                (insertNode (.Leaf (np.drop ((commonPfx np path).length + 1))
                  nv))).set
              (path.getD (commonPfx np path).length 0)
              (insertNode (.Leaf (path.drop ((commonPfx np path).length + 1)) v)))
              none) =
            .ok (some (.Leaf (np.drop (commonPfx np path).length) nv)) := by
          rw [remove_fresh_leaf_branch _ _ hltp
            (getD_set_eq _ _ _ _ (by simpa [nullChildren] using hj))]
          rw [set_set_same,
            set_getD_self
              (nullChildren.set (np.getD (commonPfx np path).length 0)
                (insertNode (.Leaf (np.drop ((commonPfx np path).length + 1)) nv)))
              (path.getD (commonPfx np path).length 0)
              NodePointer.Null NodePointer.Null (by
              rw [getD_set_ne _ _ _ _ _ hij]
              exact getD_replicate_self 16 _ NodePointer.Null)]
          rw [collapseBranch_single_leaf hi₁ _ nv]
          rw [drop_eq_getD_cons hlt1]
        by_cases hl : (commonPfx np path).length > 0
        · rw [if_pos hl] at h
          cases h
          have hsw : startsWith path (commonPfx np path) = true :=
            commonPfx_startsWith_right np path
          rw [remN_ext_sw hsw, remP_insertNode, hbr]
          show Except.ok (some (Node.Leaf (commonPfx np path ++
              np.drop (commonPfx np path).length) nv)) =
            Except.ok (some (Node.Leaf np nv))
          rw [append_drop_of_startsWith (commonPfx_startsWith_left np path)]
        · rw [if_neg hl] at h
          cases h
          have hL0 : (commonPfx np path).length = 0 := by omega
          rw [hL0] at hbr ⊢
          rw [List.drop_zero] at hbr
          exact hbr
  | path, v, .Extension np q, m, hc, hv, habs, h => by
    obtain ⟨hne, hvnp, hq⟩ := canonical_ext_elim hc
    by_cases hs : startsWith path np = true
    · obtain ⟨cs, w, hderef, hcanB, hinsq⟩ := canonicalExtTarget_elim hq
      rw [getN_ext, if_pos hs, getP_deref hderef] at habs
      rw [insN_ext_sw hs, insP_deref hderef] at h
      cases hm : insertPathByNode (path.drop np.length) v (.Branch cs w) with
      | error e => rw [hm] at h; simp [Except.map] at h
      | ok m₁ =>
        rw [hm] at h
        simp only [Except.map] at h
        cases h
        rw [remN_ext_sw hs, remP_insertNode,
          removeN_insert (path.drop np.length) v (.Branch cs w) m₁ hcanB
            (validPath_drop hv _) habs hm]
        show Except.ok (some (Node.Extension np (insertNode (Node.Branch cs w)))) =
          Except.ok (some (Node.Extension np q))
        rw [hinsq]
    · have hs' : startsWith path np = false := by simpa using hs
      rw [insN_ext_split hs'] at h
      by_cases hlt : (commonPfx np path).length < np.length
      · rw [if_pos hlt] at h
        have hcle2 : (commonPfx np path).length ≤ path.length :=
          commonPfx_length_le_right np path
        by_cases h2 : (commonPfx np path).length = path.length
        · simp only [extSplit_move h2] at h
          have hbr : removePathByNode (path.drop (commonPfx np path).length)
              (.Branch (extSplitTc0 np path q) (some v)) =
              .ok (some (.Extension (np.drop (commonPfx np path).length) q)) := by
            have hdp : path.drop (commonPfx np path).length = [] := by
              rw [h2, List.drop_length]
            rw [hdp, remN_branch_nil]
            exact collapse_tc0 hlt hvnp hq
          by_cases hl : (commonPfx np path).length > 0
          · rw [if_pos hl] at h
            cases h
            have hsw : startsWith path (commonPfx np path) = true :=
              commonPfx_startsWith_right np path
            rw [remN_ext_sw hsw, remP_insertNode, hbr]
            show Except.ok (some (Node.Extension (commonPfx np path ++
                np.drop (commonPfx np path).length) q)) =
              Except.ok (some (Node.Extension np q))
            rw [append_drop_of_startsWith (commonPfx_startsWith_left np path)]
          · rw [if_neg hl] at h
            cases h
            have hL0 : (commonPfx np path).length = 0 := by omega
            rw [hL0, List.drop_zero] at hbr
            exact hbr
        · simp only [extSplit_child h2] at h
          have hltp : (commonPfx np path).length < path.length := by omega
          have hj : path.getD (commonPfx np path).length 0 < 16 :=
            validPath_getD hv hltp
          have hij : np.getD (commonPfx np path).length 0 ≠
              path.getD (commonPfx np path).length 0 :=
            commonPfx_getD_ne hlt hltp
          have hbr : removePathByNode (path.drop (commonPfx np path).length)
              (.Branch ((extSplitTc0 np path q).set
                (path.getD (commonPfx np path).length 0)
                (insertNode (.Leaf (path.drop ((commonPfx np path).length + 1))
                  v)))
                none) =
              .ok (some (.Extension (np.drop (commonPfx np path).length) q)) := by
            rw [remove_fresh_leaf_branch _ _ hltp
              (getD_set_eq _ _ _ _ (by rw [extSplitTc0_length]; exact hj))]
            rw [set_set_same,
              set_getD_self _ _ _ _ (extSplitTc0_getD_other hij)]
            exact collapse_tc0 hlt hvnp hq
          by_cases hl : (commonPfx np path).length > 0
          · rw [if_pos hl] at h
            cases h
            have hsw : startsWith path (commonPfx np path) = true :=
              commonPfx_startsWith_right np path
            rw [remN_ext_sw hsw, remP_insertNode, hbr]
            show Except.ok (some (Node.Extension (commonPfx np path ++
                np.drop (commonPfx np path).length) q)) =
              Except.ok (some (Node.Extension np q))
            rw [append_drop_of_startsWith (commonPfx_startsWith_left np path)]
          · rw [if_neg hl] at h
            cases h
            have hL0 : (commonPfx np path).length = 0 := by omega
            rw [hL0] at hbr ⊢
            rw [List.drop_zero] at hbr
            exact hbr
      · rw [if_neg hlt] at h
        cases h
termination_by path v n _ _ _ _ _ => sizeOf n
decreasing_by
  · have h1 := sizeOf_getD_le cs i
    have h2 : sizeOf (Node.Branch cs w) = 1 + sizeOf cs + sizeOf w := by simp
    omega
  · have h1 := sizeOf_deref_lt hderef
    have h2 : sizeOf (Node.Extension np q) = 1 + sizeOf np + sizeOf q := by simp
    omega
end

/-- `insertSeq` step: a successful insert threads the new root. -/
theorem insertSeq_cons_ok {r : Option Node} {k v : List Nat} {n : Node}
    (h : insert r k v = .ok n) (rest : List (List Nat × List Nat)) :
    insertSeq r ((k, v) :: rest) = insertSeq (some n) rest := by
  simp [insertSeq, h]

/-- `insertSeq` step: a failing insert fails the whole sequence. -/
theorem insertSeq_cons_err {r : Option Node} {k v : List Nat}
    (h : insert r k v = .error ()) (rest : List (List Nat × List Nat)) :
    insertSeq r ((k, v) :: rest) = .error () := by
  simp [insertSeq, h]

/-- The public `remove` on a present root, unfolded to its recursive step. -/
theorem remove_some (k : List Nat) (n : Node) :
    remove (some n) k =
      match removePathByNode (fromKey k) n with
      | .error e => .error e
      | .ok none => .ok none
      | .ok (some m) => .ok (some m) := by
  unfold remove
  rw [show rootPointer (some n) = NodePointer.Pointer n from rfl, remP_ptr]

/-- A successful public `insert` came from a successful recursive step whose
pointer dereferences to the returned node. -/
theorem insert_ok_elim {r : Option Node} {k v : List Nat} {n : Node}
    (h : insert r k v = .ok n) :
    ∃ p', insertPathByPointer (fromKey k) v (rootPointer r) = .ok p' ∧
      derefNodePointer p' = some n := by
  unfold insert at h
  cases hp : insertPathByPointer (fromKey k) v (rootPointer r) with
  | error e => rw [hp] at h; cases h
  | ok p' =>
    rw [hp] at h
    cases p' with
    | Null => cases h
    | Pointer m =>
      cases h
      exact ⟨.Pointer n, rfl, rfl⟩
    | Embedded m =>
      cases h
      exact ⟨.Embedded n, rfl, rfl⟩

/-- Every root reachable through the public API satisfies the canonical-form
invariant. -/
theorem reachable_canonical : ∀ {r : Option Node}, Reachable r →
    canonicalRoot r = true := by
  intro r h
  induction h with
  | empty => rfl
  | insert_step hr hk hins ih =>
    rename_i r₀ k v n
    show canonicalNode n = true
    obtain ⟨p', hp, hd⟩ := insert_ok_elim hins
    cases r₀ with
    | none =>
      rw [show rootPointer none = NodePointer.Null from rfl, insP_null] at hp
      cases hp
      rw [insertNode_deref] at hd
      cases hd
      rw [canonical_leaf]
      exact fromKey_valid hk
    | some m =>
      rw [show rootPointer (some m) = NodePointer.Pointer m from rfl,
        insP_ptr] at hp
      cases hm : insertPathByNode (fromKey k) v m with
      | error e => rw [hm] at hp; simp [Except.map] at hp
      | ok m₁ =>
        rw [hm] at hp
        simp only [Except.map] at hp
        cases hp
        rw [insertNode_deref] at hd
        cases hd
        exact insertN_canonical (fromKey k) v m n ih (fromKey_valid hk) hm
  | remove_step hr hk hrem ih =>
    rename_i r₀ r₁ k
    cases r₀ with
    | none =>
      have h2 : (Except.ok none : Except Unit (Option Node)) = .ok r₁ := hrem
      cases Except.ok.inj h2
      rfl
    | some m =>
      have hcm : canonicalNode m = true := ih
      obtain ⟨res, hres, hcan, hiff⟩ := removeN_master (fromKey k) m hcm
      rw [remove_some, hres] at hrem
      cases res with
      | none =>
        have h2 : (Except.ok none : Except Unit (Option Node)) = .ok r₁ := hrem
        cases Except.ok.inj h2
        rfl
      | some n' =>
        have h2 : (Except.ok (some n') : Except Unit (Option Node)) = .ok r₁ :=
          hrem
        cases Except.ok.inj h2
        show canonicalNode n' = true
        exact hcan n' rfl

/-- A positive non-Null count yields a non-Null slot. -/
theorem exists_nonNull_of_pos {cs : List NodePointer} (h : 0 < nonNullCount cs) :
    ∃ i, i < cs.length ∧ cs.getD i .Null ≠ .Null := by
  induction cs with
  | nil => simp [nonNullCount] at h
  | cons c cs ih =>
    rw [nonNullCount_cons] at h
    by_cases hc : c = NodePointer.Null
    · subst hc
      have h1 : 0 < nonNullCount cs := by
        have h0 : ptrWeight NodePointer.Null = 0 := rfl
        omega
      obtain ⟨i, hi, hine⟩ := ih h1
      refine ⟨i + 1, by simpa using Nat.succ_lt_succ hi, ?_⟩
      simpa [List.getD_cons_succ] using hine
    · exact ⟨0, by simp, by simpa [List.getD_cons_zero] using hc⟩

/-- A non-Null count of at least two yields two distinct non-Null slots. -/
theorem exists_two_nonNull {cs : List NodePointer} (h : 2 ≤ nonNullCount cs) :
    ∃ i j, i < cs.length ∧ j < cs.length ∧ i ≠ j ∧
      cs.getD i .Null ≠ .Null ∧ cs.getD j .Null ≠ .Null := by
  induction cs with
  | nil => simp [nonNullCount] at h
  | cons c cs ih =>
    rw [nonNullCount_cons] at h
    by_cases hc : c = NodePointer.Null
    · subst hc
      have h2 : 2 ≤ nonNullCount cs := by
        have h0 : ptrWeight NodePointer.Null = 0 := rfl
        omega
      obtain ⟨i, j, hi, hj, hij, hine, hjne⟩ := ih h2
      exact ⟨i + 1, j + 1, by simpa using Nat.succ_lt_succ hi,
        by simpa using Nat.succ_lt_succ hj, by omega,
        by simpa [List.getD_cons_succ] using hine,
        by simpa [List.getD_cons_succ] using hjne⟩
    · have hw : ptrWeight c = 1 := ptrWeight_one_of_ne_null hc
      have h1 : 0 < nonNullCount cs := by omega
      obtain ⟨j, hj, hjne⟩ := exists_nonNull_of_pos h1
      exact ⟨0, j + 1, by simp, by simpa using Nat.succ_lt_succ hj, by omega,
        by simpa [List.getD_cons_zero] using hc,
        by simpa [List.getD_cons_succ] using hjne⟩

mutual
/-- A canonical non-Null pointer binds at least one valid path. -/
theorem canonical_binds_ptr : ∀ (q : NodePointer), canonicalPtr q = true →
    q ≠ .Null → ∃ p, validPath p = true ∧ (getPathByPointer p q).isSome = true
  | .Null, _, hne => absurd rfl hne
  | .Pointer n, hq, _ => by
    have hn : canonicalNode n = true := by
      simp only [canonicalPtr, Bool.and_eq_true] at hq
      exact hq.2
    obtain ⟨p, hv, hs⟩ := canonical_binds_node n hn
    exact ⟨p, hv, by rw [getP_ptr]; exact hs⟩
  | .Embedded n, hq, _ => by
    have hn : canonicalNode n = true := by
      simp only [canonicalPtr, Bool.and_eq_true] at hq
      exact hq.2
    obtain ⟨p, hv, hs⟩ := canonical_binds_node n hn
    exact ⟨p, hv, by rw [getP_emb]; exact hs⟩
termination_by q _ _ => sizeOf q
decreasing_by all_goals simp_arith

/-- A canonical node binds at least one valid path. -/
theorem canonical_binds_node : ∀ (n : Node), canonicalNode n = true →
    ∃ p, validPath p = true ∧ (getPathByNode p n).isSome = true
  | .Leaf np nv, hc => by
    rw [canonical_leaf] at hc
    exact ⟨np, hc, by rw [getN_leaf, if_pos rfl]; rfl⟩
  | .Branch cs w, hc => by
    obtain ⟨hlen, hch, hcount⟩ := canonical_branch_elim hc
    cases w with
    | some wv => exact ⟨[], rfl, by rw [getN_branch_nil]; rfl⟩
    | none =>
      rw [childCount_none] at hcount
      obtain ⟨i, hi, hine⟩ := @exists_nonNull_of_pos cs (by omega)
      obtain ⟨p, hv, hs⟩ := canonical_binds_ptr (cs.getD i .Null)
        (canonicalChildren_getD hch i) hine
      refine ⟨i :: p, validPath_cons (by omega) hv, ?_⟩
      rw [getN_branch_cons]
      exact hs
  | .Extension np q, hc => by
    obtain ⟨hne, hvnp, hq⟩ := canonical_ext_elim hc
    obtain ⟨cs, w, hderef, hcanB, hinsq⟩ := canonicalExtTarget_elim hq
    obtain ⟨p, hv, hs⟩ := canonical_binds_node (.Branch cs w) hcanB
    refine ⟨np ++ p, validPath_append hvnp hv, ?_⟩
    rw [getN_ext, if_pos (startsWith_append np p), getP_deref hderef,
      show (np ++ p).drop np.length = p from List.drop_left np p]
    exact hs
termination_by n _ => sizeOf n
decreasing_by
  · have h1 := sizeOf_getD_le cs i
    have h2 : sizeOf (Node.Branch cs w) = 1 + sizeOf cs + sizeOf w := by simp
    omega
  · have h1 := sizeOf_deref_lt hderef
    have h2 : sizeOf (Node.Extension np q) = 1 + sizeOf np + sizeOf q := by simp
    omega
end

/-- A canonical Branch binds at least two distinct valid paths. -/
theorem canonical_binds_two {cs : List NodePointer} {w : Option (List Nat)}
    (hc : canonicalNode (.Branch cs w) = true) :
    ∃ p₁ p₂, p₁ ≠ p₂ ∧ validPath p₁ = true ∧ validPath p₂ = true ∧
      (getPathByNode p₁ (.Branch cs w)).isSome = true ∧
      (getPathByNode p₂ (.Branch cs w)).isSome = true := by
  obtain ⟨hlen, hch, hcount⟩ := canonical_branch_elim hc
  cases w with
  | some wv =>
    rw [childCount_some] at hcount
    obtain ⟨i, hi, hine⟩ := @exists_nonNull_of_pos cs (by omega)
    obtain ⟨p, hv, hs⟩ := canonical_binds_ptr (cs.getD i .Null)
      (canonicalChildren_getD hch i) hine
    refine ⟨[], i :: p, by simp, rfl, validPath_cons (by omega) hv, ?_, ?_⟩
    · rw [getN_branch_nil]
      rfl
    · rw [getN_branch_cons]
      exact hs
  | none =>
    rw [childCount_none] at hcount
    obtain ⟨i, j, hi, hj, hij, hine, hjne⟩ := exists_two_nonNull hcount
    obtain ⟨p₁, hv₁, hs₁⟩ := canonical_binds_ptr (cs.getD i .Null)
      (canonicalChildren_getD hch i) hine
    obtain ⟨p₂, hv₂, hs₂⟩ := canonical_binds_ptr (cs.getD j .Null)
      (canonicalChildren_getD hch j) hjne
    refine ⟨i :: p₁, j :: p₂, by simp [hij], validPath_cons (by omega) hv₁,
      validPath_cons (by omega) hv₂, ?_, ?_⟩
    · rw [getN_branch_cons]
      exact hs₁
    · rw [getN_branch_cons]
      exact hs₂

/-- A canonical node is a single Leaf or binds two distinct valid paths. -/
theorem canonical_leaf_or_two : ∀ (n : Node), canonicalNode n = true →
    (∃ np v, n = .Leaf np v) ∨
    (∃ p₁ p₂, p₁ ≠ p₂ ∧ validPath p₁ = true ∧ validPath p₂ = true ∧
      (getPathByNode p₁ n).isSome = true ∧ (getPathByNode p₂ n).isSome = true)
  | .Leaf np v, _ => .inl ⟨np, v, rfl⟩
  | .Branch cs w, hc => .inr (canonical_binds_two hc)
  | .Extension np q, hc => by
    right
    obtain ⟨hne, hvnp, hq⟩ := canonical_ext_elim hc
    obtain ⟨cs, w, hderef, hcanB, hinsq⟩ := canonicalExtTarget_elim hq
    obtain ⟨p₁, p₂, hne₁₂, hv₁, hv₂, hs₁, hs₂⟩ := canonical_binds_two hcanB
    refine ⟨np ++ p₁, np ++ p₂, fun he => hne₁₂ (List.append_cancel_left he),
      validPath_append hvnp hv₁, validPath_append hvnp hv₂, ?_, ?_⟩
    · rw [getN_ext, if_pos (startsWith_append np p₁), getP_deref hderef,
        show (np ++ p₁).drop np.length = p₁ from List.drop_left np p₁]
      exact hs₁
    · rw [getN_ext, if_pos (startsWith_append np p₂), getP_deref hderef,
        show (np ++ p₂).drop np.length = p₂ from List.drop_left np p₂]
      exact hs₂

mutual
/-- The store-threaded lookup step equals the pure one and leaves the store
untouched (a pointer dereference only reads). -/
theorem getPS_pure : ∀ (path : Path) (p : NodePointer) (s : Store),
    getPathByPointerS path p s = (getPathByPointer path p, s)
  | path, .Null, s => by
    rw [show getPathByPointerS path .Null s = (none, s) from by
      unfold getPathByPointerS
      rfl]
    rw [getP_null]
  | path, .Pointer n, s => by
    rw [show getPathByPointerS path (.Pointer n) s = getPathByNodeS path n s from by
      unfold getPathByPointerS
      rfl]
    rw [getNS_pure path n s, getP_ptr]
  | path, .Embedded n, s => by
    rw [show getPathByPointerS path (.Embedded n) s = getPathByNodeS path n s from by
      unfold getPathByPointerS
      rfl]
    rw [getNS_pure path n s, getP_emb]
termination_by _ p _ => sizeOf p
decreasing_by all_goals simp_arith

/-- The store-threaded node lookup equals the pure one and leaves the store
untouched. -/
theorem getNS_pure : ∀ (path : Path) (n : Node) (s : Store),
    getPathByNodeS path n s = (getPathByNode path n, s)
  | path, .Branch cs w, s => by
    cases path with
    | nil =>
      rw [getN_branch_nil]
      unfold getPathByNodeS
      rfl
    | cons i rest =>
      rw [getN_branch_cons]
      unfold getPathByNodeS
      exact getPS_pure rest (cs.getD i .Null) s
  | path, .Leaf np nv, s => by
    rw [getN_leaf]
    unfold getPathByNodeS
    rfl
  | path, .Extension np q, s => by
    unfold getPathByNodeS
    by_cases hs : startsWith path np = true
    · rw [getN_ext, if_pos hs, if_pos hs]
      exact getPS_pure (path.drop np.length) q s
    · have hs' : startsWith path np = false := by simpa using hs
      rw [getN_ext, hs']
      simp
termination_by _ n _ => sizeOf n
decreasing_by
  · have h1 := sizeOf_getD_le cs i
    have h2 : sizeOf (Node.Branch cs w) = 1 + sizeOf cs + sizeOf w := by simp
    omega
  · have h2 : sizeOf (Node.Extension np q) = 1 + sizeOf np + sizeOf q := by simp
    omega
end

/-- C1: refuted as stated. trie.rs guards the Branch case of
`insert_path_by_node` with `children.is_empty()` instead of the spec's "if
`path` is empty", so every Branch with a materialized child array (all of
them: the array always has 16 slots) sends an empty remaining path into
`path[0]`, an out-of-bounds panic; the value slot is never updated. End to
end, inserting the empty key into a Branch-rooted trie (here the root built
by inserting keys 97 and 112) panics instead of storing the value. -/
theorem C1_branch_empty_path :
    (∀ (cs : List NodePointer) (w : Option (List Nat)) (v : List Nat),
      cs.isEmpty = false → insertPathByNode [] v (.Branch cs w) = .error ()) ∧
    insert (some (.Branch [.Null, .Null, .Null, .Null, .Null, .Null,
        .Embedded (.Leaf [1] [1]), .Embedded (.Leaf [0] [2]),
        .Null, .Null, .Null, .Null, .Null, .Null, .Null, .Null] none))
      [] [3] = .error () := by
  constructor
  · intro cs w v h
    exact insN_branch_nil h v w
  · exact @insert_eval 100
      (some (.Branch [.Null, .Null, .Null, .Null, .Null, .Null,
        .Embedded (.Leaf [1] [1]), .Embedded (.Leaf [0] [2]),
        .Null, .Null, .Null, .Null, .Null, .Null, .Null, .Null] none))
      [] [3] (.error ()) (by decide) (by decide)

/-- C2: refuted as stated. The sequence 97↦[1], (97,97)↦[2], 97↦[3] panics on
the third insert: after the second insert the binding of key 97 sits in the
value slot of a Branch, and re-inserting 97 walks to that Branch with an empty
remaining path, where the `children.is_empty()` guard (instead of
`path.is_empty()`) sends it into the out-of-bounds `path[0]`. No final root
exists, so get cannot return the last value written. -/
theorem C2_last_write_wins :
    insertSeq none [([97], [1]), ([97, 97], [2]), ([97], [3])] = .error () := by
  have h1 : insert none [97] [1] = .ok (.Leaf [6, 1] [1]) :=
    @insert_eval 100 none [97] [1] (.ok (.Leaf [6, 1] [1])) (by decide) (by decide)
  have h2 : insert (some (.Leaf [6, 1] [1])) [97, 97] [2] =
      .ok (.Extension [6, 1] (.Embedded (.Branch
        [.Null, .Null, .Null, .Null, .Null, .Null, .Embedded (.Leaf [1] [2]),
         .Null, .Null, .Null, .Null, .Null, .Null, .Null, .Null, .Null]
        (some [1])))) :=
    @insert_eval 100 (some (.Leaf [6, 1] [1])) [97, 97] [2]
      (.ok (.Extension [6, 1] (.Embedded (.Branch
        [.Null, .Null, .Null, .Null, .Null, .Null, .Embedded (.Leaf [1] [2]),
         .Null, .Null, .Null, .Null, .Null, .Null, .Null, .Null, .Null]
        (some [1]))))) (by decide) (by decide)
  have h3 : insert (some (.Extension [6, 1] (.Embedded (.Branch
        [.Null, .Null, .Null, .Null, .Null, .Null, .Embedded (.Leaf [1] [2]),
         .Null, .Null, .Null, .Null, .Null, .Null, .Null, .Null, .Null]
        (some [1]))))) [97] [3] = .error () :=
    @insert_eval 100 (some (.Extension [6, 1] (.Embedded (.Branch
        [.Null, .Null, .Null, .Null, .Null, .Null, .Embedded (.Leaf [1] [2]),
         .Null, .Null, .Null, .Null, .Null, .Null, .Null, .Null, .Null]
        (some [1]))))) [97] [3] (.error ()) (by decide) (by decide)
  rw [insertSeq_cons_ok h1, insertSeq_cons_ok h2, insertSeq_cons_err h3]

/-- C3: refuted as stated. The set {empty↦[3], 97↦[1], 112↦[2]} of pairwise
distinct keys inserted in the order empty, 97, 112 yields a root; the
permutation 97, 112, empty panics (the empty key is inserted into a
Branch-rooted trie, claim C1's bug), so the two permutations do not yield the
same root hash — one yields none at all. -/
theorem C3_permutation_independence :
    insertSeq none [([], [3]), ([97], [1]), ([112], [2])] =
      .ok (some (.Branch [.Null, .Null, .Null, .Null, .Null, .Null,
        .Embedded (.Leaf [1] [1]), .Embedded (.Leaf [0] [2]),
        .Null, .Null, .Null, .Null, .Null, .Null, .Null, .Null] (some [3]))) ∧
    insertSeq none [([97], [1]), ([112], [2]), ([], [3])] = .error () := by
  constructor
  · have h1 : insert none [] [3] = .ok (.Leaf [] [3]) :=
      @insert_eval 100 none [] [3] (.ok (.Leaf [] [3])) (by decide) (by decide)
    have h2 : insert (some (.Leaf [] [3])) [97] [1] =
        .ok (.Branch [.Null, .Null, .Null, .Null, .Null, .Null,
          .Embedded (.Leaf [1] [1]),
          .Null, .Null, .Null, .Null, .Null, .Null, .Null, .Null, .Null]
          (some [3])) :=
      @insert_eval 100 (some (.Leaf [] [3])) [97] [1]
        (.ok (.Branch [.Null, .Null, .Null, .Null, .Null, .Null,
          .Embedded (.Leaf [1] [1]),
          .Null, .Null, .Null, .Null, .Null, .Null, .Null, .Null, .Null]
          (some [3]))) (by decide) (by decide)
    have h3 : insert (some (.Branch [.Null, .Null, .Null, .Null, .Null, .Null,
          .Embedded (.Leaf [1] [1]),
          .Null, .Null, .Null, .Null, .Null, .Null, .Null, .Null, .Null]
          (some [3]))) [112] [2] =
        .ok (.Branch [.Null, .Null, .Null, .Null, .Null, .Null,
          .Embedded (.Leaf [1] [1]), .Embedded (.Leaf [0] [2]),
          .Null, .Null, .Null, .Null, .Null, .Null, .Null, .Null] (some [3])) :=
      @insert_eval 100 (some (.Branch [.Null, .Null, .Null, .Null, .Null, .Null,
          .Embedded (.Leaf [1] [1]),
          .Null, .Null, .Null, .Null, .Null, .Null, .Null, .Null, .Null]
          (some [3]))) [112] [2]
        (.ok (.Branch [.Null, .Null, .Null, .Null, .Null, .Null,
          .Embedded (.Leaf [1] [1]), .Embedded (.Leaf [0] [2]),
          .Null, .Null, .Null, .Null, .Null, .Null, .Null, .Null] (some [3])))
        (by decide) (by decide)
    rw [insertSeq_cons_ok h1, insertSeq_cons_ok h2, insertSeq_cons_ok h3]
    rfl
  · have h4 : insert none [97] [1] = .ok (.Leaf [6, 1] [1]) :=
      @insert_eval 100 none [97] [1] (.ok (.Leaf [6, 1] [1])) (by decide)
        (by decide)
    have h5 : insert (some (.Leaf [6, 1] [1])) [112] [2] =
        .ok (.Branch [.Null, .Null, .Null, .Null, .Null, .Null,
          .Embedded (.Leaf [1] [1]), .Embedded (.Leaf [0] [2]),
          .Null, .Null, .Null, .Null, .Null, .Null, .Null, .Null] none) :=
      @insert_eval 100 (some (.Leaf [6, 1] [1])) [112] [2]
        (.ok (.Branch [.Null, .Null, .Null, .Null, .Null, .Null,
          .Embedded (.Leaf [1] [1]), .Embedded (.Leaf [0] [2]),
          .Null, .Null, .Null, .Null, .Null, .Null, .Null, .Null] none))
        (by decide) (by decide)
    have h6 : insert (some (.Branch [.Null, .Null, .Null, .Null, .Null, .Null,
          .Embedded (.Leaf [1] [1]), .Embedded (.Leaf [0] [2]),
          .Null, .Null, .Null, .Null, .Null, .Null, .Null, .Null] none))
        [] [3] = .error () :=
      @insert_eval 100 (some (.Branch [.Null, .Null, .Null, .Null, .Null, .Null,
          .Embedded (.Leaf [1] [1]), .Embedded (.Leaf [0] [2]),
          .Null, .Null, .Null, .Null, .Null, .Null, .Null, .Null] none))
        [] [3] (.error ()) (by decide) (by decide)
    rw [insertSeq_cons_ok h4, insertSeq_cons_ok h5, insertSeq_cons_err h6]

/-- C4: remove on an absent root returns None immediately; on a canonical root
remove never panics — it returns Ok res — and res is None exactly when nothing
but the removed key's path remains bound (every valid nibble path other than
the key's resolves to nothing); in particular, when some other valid path is
still bound, remove returns Some new root hash. -/
theorem C4_remove_none_iff_empty :
    (∀ (k : List Nat), remove none k = .ok none) ∧
    (∀ (r : Option Node) (k : List Nat), canonicalRoot r = true →
      ∃ res, remove r k = .ok res ∧
        (res = none ↔
          ∀ p, validPath p = true → p ≠ fromKey k →
            getPathByPointer p (rootPointer r) = none)) ∧
    ∀ (r : Option Node) (k : List Nat) (p : Path), canonicalRoot r = true →
      validPath p = true → p ≠ fromKey k →
      getPathByPointer p (rootPointer r) ≠ none →
      ∃ n', remove r k = .ok (some n') := by
  refine ⟨fun k => rfl, ?_, ?_⟩
  · intro r k hr
    cases r with
    | none =>
      refine ⟨none, rfl, ?_⟩
      constructor
      · intro _ p _ _
        exact getP_null p
      · intro _
        rfl
    | some n =>
      have hcn : canonicalNode n = true := hr
      obtain ⟨res, hres, hcan, hiff⟩ := removeN_master (fromKey k) n hcn
      refine ⟨res, ?_, ?_⟩
      · rw [remove_some, hres]
        cases res with
        | none => rfl
        | some n' => rfl
      · constructor
        · intro hresn p hvp hpne
          obtain ⟨v, hnl⟩ := hiff.mp hresn
          subst hnl
          rw [show rootPointer (some (Node.Leaf (fromKey k) v)) =
              NodePointer.Pointer (Node.Leaf (fromKey k) v) from rfl,
            getP_ptr, getN_leaf, if_neg (fun he => hpne he.symm)]
        · intro hall
          have hleaf : ∃ v, n = Node.Leaf (fromKey k) v := by
            rcases canonical_leaf_or_two n hcn with ⟨np, v, hnl⟩ |
              ⟨p₁, p₂, h12, hv₁, hv₂, hs₁, hs₂⟩
            · subst hnl
              by_cases hnp : np = fromKey k
              · exact ⟨v, by rw [hnp]⟩
              · exfalso
                have hvnp : validPath np = true := by
                  rw [canonical_leaf] at hcn
                  exact hcn
                have hx := hall np hvnp hnp
                rw [show rootPointer (some (Node.Leaf np v)) =
                    NodePointer.Pointer (Node.Leaf np v) from rfl,
                  getP_ptr, getN_leaf, if_pos rfl] at hx
                cases hx
            · exfalso
              by_cases h1 : p₁ = fromKey k
              · have h2 : p₂ ≠ fromKey k := fun he => h12 (h1.trans he.symm)
                have hx := hall p₂ hv₂ h2
                rw [show rootPointer (some n) = NodePointer.Pointer n from rfl,
                  getP_ptr] at hx
                rw [hx] at hs₂
                simp at hs₂
              · have hx := hall p₁ hv₁ h1
                rw [show rootPointer (some n) = NodePointer.Pointer n from rfl,
                  getP_ptr] at hx
                rw [hx] at hs₁
                simp at hs₁
          exact hiff.mpr hleaf
  · intro r k p hr hvp hpne hbound
    cases r with
    | none => exact absurd (getP_null p) hbound
    | some n =>
      have hcn : canonicalNode n = true := hr
      obtain ⟨res, hres, hcan, hiff⟩ := removeN_master (fromKey k) n hcn
      cases res with
      | some n' =>
        refine ⟨n', ?_⟩
        rw [remove_some, hres]
      | none =>
        exfalso
        obtain ⟨v, hnl⟩ := hiff.mp rfl
        subst hnl
        rw [show rootPointer (some (Node.Leaf (fromKey k) v)) =
            NodePointer.Pointer (Node.Leaf (fromKey k) v) from rfl,
          getP_ptr, getN_leaf, if_neg (fun he => hpne he.symm)] at hbound
        exact hbound rfl

/-- C5 (amended): the insert-then-remove round trip restores the original root
when the key was absent: for canonical r with get(r, k) = None, insert(r, k, v)
followed by remove of k yields r (and None when r was None). When k was
already bound the round trip instead yields the trie without k. -/
theorem C5_insert_remove_roundtrip :
    ∀ (r : Option Node) (k v : List Nat) (n : Node),
      canonicalRoot r = true → validKey k = true → get r k = none →
      insert r k v = .ok n → remove (some n) k = .ok r := by
  intro r k v n hr hk hget hins
  obtain ⟨p', hp, hd⟩ := insert_ok_elim hins
  cases r with
  | none =>
    rw [show rootPointer none = NodePointer.Null from rfl, insP_null] at hp
    cases hp
    rw [insertNode_deref] at hd
    cases hd
    rw [remove_some, remN_leaf, if_pos rfl]
  | some m =>
    have hcm : canonicalNode m = true := hr
    rw [show rootPointer (some m) = NodePointer.Pointer m from rfl,
      insP_ptr] at hp
    cases hm : insertPathByNode (fromKey k) v m with
    | error e => rw [hm] at hp; simp [Except.map] at hp
    | ok m₁ =>
      rw [hm] at hp
      simp only [Except.map] at hp
      cases hp
      rw [insertNode_deref] at hd
      cases hd
      have hget₁ : getPathByNode (fromKey k) m = none := by
        rw [show get (some m) k =
            getPathByPointer (fromKey k) (NodePointer.Pointer m) from rfl,
          getP_ptr] at hget
        exact hget
      rw [remove_some,
        removeN_insert (fromKey k) v m n hcm (fromKey_valid hk) hget₁ hm]

/-- C5 counterexample to the claim as stated: key 97 is already bound in
r = Leaf([6,1],[8]); inserting 97↦[7] gives Leaf([6,1],[7]), and removing 97
from it yields None — the empty root, not r. -/
theorem C5_counterexample :
    insert (some (.Leaf [6, 1] [8])) [97] [7] = .ok (.Leaf [6, 1] [7]) ∧
    remove (some (.Leaf [6, 1] [7])) [97] = .ok none ∧
    (Except.ok none : Except Unit (Option Node)) ≠
      .ok (some (.Leaf [6, 1] [8])) :=
  ⟨@insert_eval 100 (some (.Leaf [6, 1] [8])) [97] [7]
      (.ok (.Leaf [6, 1] [7])) (by decide) (by decide),
   @remove_eval 100 (some (.Leaf [6, 1] [7])) [97] (.ok none)
      (by decide) (by decide),
   by decide⟩

/-- C5 witness: the amended round trip at a concrete absent key: r binds only
key 97, inserting key 112 and removing it again restores r exactly. -/
theorem C5_witness :
    remove (some (.Branch [.Null, .Null, .Null, .Null, .Null, .Null,
      .Embedded (.Leaf [1] [8]), .Embedded (.Leaf [0] [2]),
      .Null, .Null, .Null, .Null, .Null, .Null, .Null, .Null] none)) [112] =
    .ok (some (.Leaf [6, 1] [8])) :=
  C5_insert_remove_roundtrip (some (.Leaf [6, 1] [8])) [112] [2]
    (.Branch [.Null, .Null, .Null, .Null, .Null, .Null,
      .Embedded (.Leaf [1] [8]), .Embedded (.Leaf [0] [2]),
      .Null, .Null, .Null, .Null, .Null, .Null, .Null, .Null] none)
    (by show canonicalNode (.Leaf [6, 1] [8]) = true
        rw [canonical_leaf]
        decide)
    (by decide)
    (@get_eval 100 (some (.Leaf [6, 1] [8])) [112] none (by decide) (by decide))
    (@insert_eval 100 (some (.Leaf [6, 1] [8])) [112] [2]
      (.ok (.Branch [.Null, .Null, .Null, .Null, .Null, .Null,
        .Embedded (.Leaf [1] [8]), .Embedded (.Leaf [0] [2]),
        .Null, .Null, .Null, .Null, .Null, .Null, .Null, .Null] none))
      (by decide) (by decide))

/-- C6: removing a key that is not bound (get returns None) from a root
reachable through the public API leaves the root unchanged. -/
theorem C6_remove_absent :
    ∀ (r : Option Node) (k : List Nat), Reachable r →
      get r k = none → remove r k = .ok r := by
  intro r k hr habs
  cases r with
  | none => rfl
  | some n =>
    have hcn : canonicalNode n = true := reachable_canonical hr
    have habs₁ : getPathByNode (fromKey k) n = none := by
      rw [show get (some n) k =
          getPathByPointer (fromKey k) (NodePointer.Pointer n) from rfl,
        getP_ptr] at habs
      exact habs
    rw [remove_some, removeN_absent (fromKey k) n hcn habs₁]

/-- C6 witness: removing the absent key 112 from the reachable root built by
inserting key 97 returns that root unchanged. -/
theorem C6_witness :
    remove (some (.Leaf [6, 1] [1])) [112] = .ok (some (.Leaf [6, 1] [1])) :=
  C6_remove_absent (some (.Leaf [6, 1] [1])) [112]
    (Reachable.insert_step Reachable.empty (by decide)
      (@insert_eval 100 none [97] [1] (.ok (.Leaf [6, 1] [1])) (by decide)
        (by decide)))
    (@get_eval 100 (some (.Leaf [6, 1] [1])) [112] none (by decide) (by decide))

/-- C7: a successful recursive insert step never returns a Null pointer, so
the public insert never takes its unreachable Null arm: the result pointer
dereferences to a node, and insert returns exactly that node (its hash). -/
theorem C7_insert_returns_hash :
    ∀ (root : Option Node) (key value : List Nat) (p' : NodePointer),
      insertPathByPointer (fromKey key) value (rootPointer root) = .ok p' →
      p' ≠ .Null ∧
        ∃ n, derefNodePointer p' = some n ∧ insert root key value = .ok n := by
  intro root key value p' h
  refine ⟨insertP_ne_null h, ?_⟩
  cases p' with
  | Null => exact absurd rfl (insertP_ne_null h)
  | Pointer n =>
    refine ⟨n, rfl, ?_⟩
    unfold insert
    rw [h]
  | Embedded n =>
    refine ⟨n, rfl, ?_⟩
    unfold insert
    rw [h]

/-- C7 witness: inserting key 97 into the empty root: the recursive step
returns the stored leaf's pointer, never Null, and insert returns the leaf. -/
theorem C7_witness :
    insertNode (.Leaf (fromKey [97]) [1]) ≠ .Null ∧
    ∃ n, derefNodePointer (insertNode (.Leaf (fromKey [97]) [1])) = some n ∧
      insert none [97] [1] = .ok n :=
  C7_insert_returns_hash none [97] [1] (insertNode (.Leaf (fromKey [97]) [1]))
    (insP_null (fromKey [97]) [1])

/-- C8: every root reachable through the public API satisfies invariants 3 and
4 of the canonical form: within the tree, no Extension node points to another
Extension or to a Leaf. -/
theorem C8_no_ext_ext_leaf :
    ∀ (r : Option Node), Reachable r → ∀ n, r = some n →
      noExtExtLeaf n = true := by
  intro r hr n hn
  have hc := reachable_canonical hr
  subst hn
  exact noExt_of_canonical n hc

/-- C8 witness: the invariant at the concrete reachable root built by
inserting key 97 into the empty trie. -/
theorem C8_witness : noExtExtLeaf (.Leaf [6, 1] [1]) = true :=
  C8_no_ext_ext_leaf (some (.Leaf [6, 1] [1]))
    (Reachable.insert_step Reachable.empty (by decide)
      (@insert_eval 100 none [97] [1] (.ok (.Leaf [6, 1] [1])) (by decide)
        (by decide)))
    (.Leaf [6, 1] [1]) rfl

/-- C9: get performs no writes: the lookup with the blob store threaded
through returns the pure lookup's result and the store exactly as it was. -/
theorem C9_get_no_writes :
    ∀ (root : Option Node) (key : List Nat) (s : Store),
      getS root key s = (get root key, s) := by
  intro root key s
  unfold getS get
  exact getPS_pure (fromKey key) (rootPointer root) s

/-- C10: the recursive walks of get, insert and remove terminate on every
root and key: the fuel-indexed transcriptions of the code complete once the
fuel exceeds the root's structural size. -/
theorem C10_recursion_terminates :
    ∀ (root : Option Node) (key value : List Nat),
      ∃ fuel, (getFuelP fuel (fromKey key) (rootPointer root)).isSome = true ∧
        (insertFuelP fuel (fromKey key) value (rootPointer root)).isSome = true ∧
        (removeFuelP fuel (fromKey key) (rootPointer root)).isSome = true := by
  intro root key value
  refine ⟨sizeOf (rootPointer root) + 1, ?_, ?_, ?_⟩
  · rw [getFuelP_eq _ _ _ (Nat.lt_succ_self _)]
    rfl
  · rw [insertFuelP_eq _ _ _ _ (Nat.lt_succ_self _)]
    rfl
  · rw [removeFuelP_eq _ _ _ (Nat.lt_succ_self _)]
    rfl

end PatriciaTrie
